import Mathlib

/-!
Verification of the MTGA Korean patcher (`app/mtga_KR_patcher.py`).

Python strings are modelled as `List Char`; the relevant library operations
(`str.replace`, `str.find`, `str.count`, `re.finditer` over a fixed pattern,
slicing) are given fuel-based executable definitions with exactly the
library's semantics, and the program's functions are translated on top of
them.
-/

namespace MtgaPatcher

/-- Python `s.replace(old, new)` for a nonempty `old`, with fuel (the fuel `s.length`
always suffices since every step consumes at least one character). -/
def pyReplaceAux : List Char → List Char → List Char → Nat → List Char
  | s, _, _, 0 => s
  | s, old, new, f+1 =>
    if old.isPrefixOf s then new ++ pyReplaceAux (s.drop old.length) old new f
    else
      match s with
      | [] => []
      | c :: t => c :: pyReplaceAux t old new f

/-- Python substitutes an empty pattern into every character gap:
`"abc".replace("", new)` is `new ++ a ++ new ++ b ++ new ++ c ++ new`. -/
def gapInsert (s new : List Char) : List Char :=
  match s with
  | [] => new
  | c :: t => new ++ c :: gapInsert t new

/-- Python `str.replace(old, new)`: literal, non-overlapping, left-to-right. -/
def pyReplace (s old new : List Char) : List Char :=
  if old = [] then gapInsert s new
  else pyReplaceAux s old new s.length

/-- Python `old in s` (substring containment). -/
def containsSub (s sub : List Char) : Bool :=
  if sub.isPrefixOf s then true
  else
    match s with
    | [] => false
    | _ :: t => containsSub t sub

/-- Index of the leftmost occurrence of `sub` in `s`, if any. -/
def strFindIdx (s sub : List Char) : Option Nat :=
  if sub.isPrefixOf s then some 0
  else
    match s with
    | [] => none
    | _ :: t => (strFindIdx t sub).map (· + 1)

/-- Python `s.find(sub)` (`-1` when absent). -/
def pyFind (s sub : List Char) : Int :=
  match strFindIdx s sub with
  | some n => (n : Int)
  | none => -1

/-- Python `s.find(sub, start)`: searches `s[start:]`, returns an absolute
index; `start > len(s)` yields no match. -/
def findFrom (s sub : List Char) (start : Nat) : Option Nat :=
  if start ≤ s.length then (strFindIdx (s.drop start) sub).map (· + start)
  else none

/-- Python `s.count(sub)` (non-overlapping, left-to-right), with fuel. -/
def countOccAux : List Char → List Char → Nat → Nat
  | _, _, 0 => 0
  | s, pat, f+1 =>
    if pat.isPrefixOf s then 1 + countOccAux (s.drop pat.length) pat f
    else
      match s with
      | [] => 0
      | _ :: t => countOccAux t pat f

/-- Python `s.count(sub)`; `s.count("")` is `len(s) + 1`. -/
def pyCount (s pat : List Char) : Nat :=
  if pat = [] then s.length + 1 else countOccAux s pat s.length

/-- Python `s.replace(old, new, k)` (at most `k` leftmost replacements),
for nonempty `old`, with fuel. -/
def pyReplaceCountAux : List Char → List Char → List Char → Nat → Nat → List Char
  | s, _, _, 0, _ => s
  | s, _, _, _+1, 0 => s
  | s, old, new, f+1, k+1 =>
    if old.isPrefixOf s then new ++ pyReplaceCountAux (s.drop old.length) old new f k
    else
      match s with
      | [] => []
      | c :: t => c :: pyReplaceCountAux t old new f (k+1)

/-- Python `s.replace(old, new, k)` for nonempty `old`. -/
def pyReplaceCount (s old new : List Char) (k : Nat) : List Char :=
  pyReplaceCountAux s old new s.length k

/-- Start indices of the matches of `re.finditer(pat, s)` for a literal
pattern `pat` (non-overlapping, left-to-right), with fuel. -/
def occPosAux : List Char → List Char → Nat → Nat → List Nat
  | _, _, 0, _ => []
  | s, pat, f+1, off =>
    if pat.isPrefixOf s then off :: occPosAux (s.drop pat.length) pat f (off + pat.length)
    else
      match s with
      | [] => []
      | _ :: t => occPosAux t pat f (off + 1)

/-- Start indices of `re.finditer(pat, s)` for a literal pattern. -/
def occPositions (s pat : List Char) : List Nat :=
  occPosAux s pat s.length 0

/-- The slice-splice `s[:q] + new + s[q+len:]`. -/
def replaceAt (s : List Char) (q len : Nat) (new : List Char) : List Char :=
  s.take q ++ new ++ s.drop (q + len)

/-! ## `has_final_consonant` and the particle (josa) repair
(source: `has_final_consonant`, and the repair block inside the Korean
replacement loop of `update_ability_text`). -/

/-- Source `has_final_consonant(char)`: inside the Hangul syllable block range the
syllable-block arithmetic decides; every other character defaults to `True`. -/
def has_final_consonant (c : Char) : Bool :=
  if '가' ≤ c ∧ c ≤ '힣' then decide ((c.toNat - '가'.toNat) % 28 > 0)
  else true

/-- The particle-pair table of the repair block: each of the eight particle
characters is mapped to its (after-consonant form, after-vowel form) pair. -/
def josaPairOf (c : Char) : Option (Char × Char) :=
  if c = '은' ∨ c = '는' then some ('은', '는')
  else if c = '이' ∨ c = '가' then some ('이', '가')
  else if c = '을' ∨ c = '를' then some ('을', '를')
  else if c = '과' ∨ c = '와' then some ('과', '와')
  else none

/-- The particle repair performed after an insertion ending at index `j`:
if `j` is in range and `w[j]` is a particle character, rewrite it to the
form selected by `has_final_consonant(new[-1])` when it differs.
(When `new` is empty the source would fault on `new[-1]`, aborting the
whole update; that unreachable-in-practice case is modelled as a no-op.) -/
def josaFix (w : List Char) (j : Nat) (new : List Char) : List Char :=
  match w[j]? with
  | none => w
  | some ch =>
    match josaPairOf ch with
    | none => w
    | some pr =>
      match new.getLast? with
      | none => w
      | some lc =>
        let correct := if has_final_consonant lc then pr.1 else pr.2
        if ch ≠ correct then w.take j ++ correct :: w.drop (j+1) else w

/-- One Korean replacement pair's `while start_index < len(work_text)` loop
(source: the per-pair loop of `update_ability_text`'s Korean branch), with
explicit fuel; `none` means the fuel ran out (the loop did not terminate
within `fuel` iterations). -/
def koLoopF : Nat → List Char → List Char → List Char → Nat → Option (List Char)
  | 0, _, _, _, _ => none
  | f+1, old, new, work, start =>
    if start < work.length then
      match findFrom work old start with
      | none => some work
      | some idx =>
        let w1 := work.take idx ++ new ++ work.drop (idx + old.length)
        let w2 := josaFix w1 (idx + new.length) new
        koLoopF f old new w2 (idx + new.length)
    else some work

/-- The Korean per-pair replacement loop run from the start of `work`. -/
def koReplacePair (work old new : List Char) : Option (List Char) :=
  koLoopF (work.length + 1) old new work 0

/-! ## The protected-span substitution engine
(source: `update_ability_text`, English branch). -/

/-- The sentinel token `__PROTECTED_{i}__`. -/
def sentinelTok (i : Nat) : List Char :=
  ("__PROTECTED_" ++ toString i ++ "__").data

/-- Stable insertion of `a` into a length-descending sorted list: `a` goes
after existing elements of equal length (Python's stable `sorted`). -/
def insLenDesc (a : List Char) : List (List Char) → List (List Char)
  | [] => [a]
  | b :: t => if b.length < a.length then a :: b :: t else b :: insLenDesc a t

/-- Python `sorted(terms, key=len, reverse=True)` (stable). -/
def sortLenDesc (l : List (List Char)) : List (List Char) :=
  l.foldl (fun acc a => insLenDesc a acc) []

/-- The protect phase: walk the sorted terms with their enumeration index;
each term present in the text is replaced everywhere by its sentinel and
recorded (in insertion order) in the returned sentinel→term list. -/
def protectLoop : List (List Char) → Nat → List Char → List Char × List (List Char × List Char)
  | [], _, w => (w, [])
  | t :: rest, i, w =>
    if containsSub w t then
      let ph := sentinelTok i
      let out := protectLoop rest (i+1) (pyReplace w t ph)
      (out.1, (ph, t) :: out.2)
    else protectLoop rest (i+1) w

/-- The engine `substitute(text, protect_terms, replacements)` as performed by the
English branch of `update_ability_text`: protect (terms sorted by descending
length), apply the replacement pairs in order with `str.replace`, restore
the recorded sentinels in insertion order. -/
def substituteEn (text : List Char) (protectTerms : List (List Char))
    (repls : List (List Char × List Char)) : List Char :=
  let pr := protectLoop (sortLenDesc protectTerms) 0 text
  let w1 := repls.foldl (fun w q => pyReplace w q.1 q.2) pr.1
  pr.2.foldl (fun w q => pyReplace w q.1 q.2) w1

/-! ## Card identity resolution
(source: `get_target_card_data` and the art-URL lookup of `run_image_change`,
with `normalize_name`). -/

/-- Source `normalize_name`: lower-case, then keep only `[a-z0-9]`. -/
def normalize_name (s : List Char) : List Char :=
  (s.map Char.toLower).filter (fun c => ('a' ≤ c ∧ c ≤ 'z') ∨ ('0' ≤ c ∧ c ≤ '9'))

/-- Python's `a or b` on two optional strings (`None` and `""` are falsy). -/
def pyOrStr (a b : Option (List Char)) : Option (List Char) :=
  match a with
  | some s => if s = [] then b else some s
  | none => b

/-- Source `card_name = interchange_name or title_name` followed by the
`if card_name:` guard of `run_image_change`. -/
def chosenName (inter title : Option (List Char)) : Option (List Char) :=
  match pyOrStr inter title with
  | some s => if s = [] then none else some s
  | none => none

/-- The Scryfall catalog: normalized name → entry, where an entry carries
`image_uris['art_crop']` when both keys are present. -/
def lookupCatalog (cat : List (List Char × Option (List Char))) (key : List Char) :
    Option (Option (List Char)) :=
  match cat with
  | [] => none
  | e :: rest => if e.1 = key then some e.2 else lookupCatalog rest key

/-- The art-URL resolution of `run_image_change`: choose the interchangeable
name if truthy else the title name, normalize it, look it up once in the
catalog, and take `image_uris['art_crop']`; any failure skips the card. -/
def resolveArtUrl (cat : List (List Char × Option (List Char)))
    (inter title : Option (List Char)) : Option (List Char) :=
  match chosenName inter title with
  | none => none
  | some nm =>
    match lookupCatalog cat (normalize_name nm) with
    | none => none
    | some e => e

/-- The `primary_name` computation of `get_target_card_data`: prefer the
interchangeable slot's localization row when the interchangeable id is
truthy, falling back to the other slot's row when the preferred row is
missing. -/
def primaryName (interId titleId : Option Int)
    (interLoc titleLoc : Option (List Char)) : Option (List Char) :=
  let interTruthy : Bool := match interId with
    | some n => decide (n ≠ 0)
    | none => false
  let ploc := if interTruthy then interId else titleId
  if ploc = interId then
    match interLoc with
    | some l => some l
    | none => titleLoc
  else
    match titleLoc with
    | some l => some l
    | none => interLoc

/-! ## The patch ledger (`patch_log.json` in `run_image_change`). -/

/-- A ledger value: a plain URL string for cards (old format), or the
`{"url": ..., "bucket_id": ...}` object for sleeves. -/
inductive LVal where
  | cardUrl (u : List Char)
  | sleeveEntry (u : List Char) (bucket : List Char)
deriving DecidableEq, Repr

/-- A ledger key: the `is_sleeve` discriminant together with the art id
(the source uses the string keys `str(art_id)` and `"sleeve_" + art_id`,
which form the same two disjoint namespaces). -/
abbrev LKey := Bool × List Char

/-- The `patched_images` mapping, ordered as a Python dict. -/
abbrev Ledger := List (LKey × LVal)

/-- Dict lookup. -/
def lookupL (pl : Ledger) (k : LKey) : Option LVal :=
  match pl with
  | [] => none
  | e :: rest => if e.1 = k then some e.2 else lookupL rest k

/-- Dict upsert (`patch_log['patched_images'][key] = value`). -/
def upsertL (pl : Ledger) (k : LKey) (v : LVal) : Ledger :=
  match pl with
  | [] => [(k, v)]
  | e :: rest => if e.1 = k then (k, v) :: rest else e :: upsertL rest k v

/-- The `is_patched_with_same_url` computation of `run_image_change`:
a truthy entry matches when (sleeve) it is a dict whose `url` equals the
given one, or (card) it is a string equal to the given one. -/
def isPatchedSameUrl (pl : Ledger) (isSleeve : Bool) (artId url : List Char) : Bool :=
  match lookupL pl (isSleeve, artId) with
  | none => false
  | some v =>
    match v with
    | .cardUrl u =>
      if u = [] then false  -- `if log_entry:` — an empty string is falsy
      else if isSleeve then false  -- a string is not a dict
      else u = url
    | .sleeveEntry u _ =>
      if isSleeve then u = url else false  -- a dict never equals a string

/-- A resource is (re)downloaded and (re)applied exactly when it is not
already patched with the same source URL. -/
def should_apply (pl : Ledger) (isSleeve : Bool) (artId url : List Char) : Bool :=
  ! isPatchedSameUrl pl isSleeve artId url

/-- Source `patch_log['patched_images'][str(art_id)] = url` (cards). -/
def recordCard (pl : Ledger) (artId url : List Char) : Ledger :=
  upsertL pl (false, artId) (.cardUrl url)

/-- Source `patch_log['patched_images']["sleeve_" + art_id] = dict` (sleeves). -/
def recordSleeve (pl : Ledger) (artId url bucket : List Char) : Ledger :=
  upsertL pl (true, artId) (.sleeveEntry url bucket)

/-- Recorded source reference of a ledger value. -/
def recordedRef : LVal → List Char
  | .cardUrl u => u
  | .sleeveEntry u _ => u

/-- Every card-keyed entry is a plain URL and every sleeve-keyed entry is a
sleeve object — the shape the program itself writes. -/
def WFLedger (pl : Ledger) : Prop :=
  ∀ e ∈ pl, (e.1.1 = false → ∃ u, e.2 = LVal.cardUrl u) ∧
            (e.1.1 = true → ∃ u b, e.2 = LVal.sleeveEntry u b)

/-- Outcome of reading `patch_log.json` from disk
(source: the ledger-loading block of `run_image_change`). -/
inductive LedgerLoad where
  | fileAbsent
  | readFailed
  | parseFailed
  | loaded (pl : Ledger)

/-- Source behaviour: `patch_log = {}` when the file is absent; `json.load`
on success; `{}` again when reading or parsing fails. -/
def loadPatchLog : LedgerLoad → Ledger
  | .fileAbsent => []
  | .readFailed => []
  | .parseFailed => []
  | .loaded pl => pl

/-! ## The SEEK keyword retranslation (`patch_seek_keyword`). -/

/-- The keyword `"Discover"`. -/
def discoverEn : List Char := "Discover".data

/-- The keyword `"SEEK"`. -/
def seekEn : List Char := "SEEK".data

/-- The Korean `'발견'` (the mistranslation to revert). -/
def discoverKo : List Char := "발견".data

/-- The Korean `'탐색'` (the correct SEEK keyword). -/
def seekKo : List Char := "탐색".data

/-- The per-record transformation of `patch_seek_keyword`: given the English
ability text and the current Korean text, compute the new Korean text (each
`continue` of the source leaves the Korean text unchanged). -/
def seekTransform (enText koText : List Char) : List Char :=
  let td := pyCount enText discoverEn
  let ts := pyCount enText seekEn
  if ts = 0 then koText
  else if pyCount koText discoverKo = td ∧ pyCount koText seekKo = ts then koText
  else
    let kr := pyReplace koText seekKo discoverKo
    if 0 < td then
      if pyCount kr discoverKo < td + ts then koText
      else if pyFind enText discoverEn < pyFind enText seekEn then
        let ms := occPositions kr discoverKo
        if td < ms.length then replaceAt kr (ms.getD td 0) discoverKo.length seekKo
        else koText
      else pyReplaceCount kr discoverKo seekKo ts
    else pyReplace kr discoverKo seekKo

/-! ## Helper lemmas about the slice-splice used by the particle repair. -/

theorem splice_length {w : List Char} {j : Nat} (c : Char) (h : j < w.length) :
    (w.take j ++ c :: w.drop (j+1)).length = w.length := by
  simp only [List.length_append, List.length_take, List.length_cons, List.length_drop]
  omega

theorem splice_getElem {w : List Char} {j : Nat} (c : Char) (h : j < w.length) :
    (w.take j ++ c :: w.drop (j+1))[j]? = some c := by
  induction w generalizing j with
  | nil => simp at h
  | cons a t ih =>
    cases j with
    | zero => simp
    | succ j =>
      simp only [List.take_succ_cons, List.drop_succ_cons, List.cons_append,
        List.getElem?_cons_succ]
      exact ih (by simpa using h)

/-! ## C2: particle-form selection. -/

/-- The code's final-consonant test agrees with the claim's arithmetic
characterization over the Hangul syllable block `U+AC00 .. U+D7A3`. -/
theorem has_final_consonant_iff (c : Char) :
    has_final_consonant c = true ↔
      ((0xAC00 ≤ c.toNat ∧ c.toNat ≤ 0xD7A3 ∧ (c.toNat - 0xAC00) % 28 ≠ 0)
        ∨ ¬ (0xAC00 ≤ c.toNat ∧ c.toNat ≤ 0xD7A3)) := by
  unfold has_final_consonant
  have hga : '가'.toNat = 0xAC00 := by decide
  rw [hga]
  have hlo : ('가' ≤ c) ↔ 0xAC00 ≤ c.toNat := ⟨fun h => h, fun h => h⟩
  have hhi : (c ≤ '힣') ↔ c.toNat ≤ 0xD7A3 := ⟨fun h => h, fun h => h⟩
  by_cases hin : '가' ≤ c ∧ c ≤ '힣'
  · rw [if_pos hin]
    have h1 : 0xAC00 ≤ c.toNat := hlo.mp hin.1
    have h2 : c.toNat ≤ 0xD7A3 := hhi.mp hin.2
    simp only [decide_eq_true_eq]
    constructor
    · intro h
      exact Or.inl ⟨h1, h2, by omega⟩
    · intro h
      rcases h with ⟨_, _, h⟩ | h
      · omega
      · exact absurd ⟨h1, h2⟩ h
  · rw [if_neg hin]
    simp only [true_iff]
    refine Or.inr fun hc => hin ⟨hlo.mpr hc.1, hhi.mpr hc.2⟩

/-- C2 — particle-form selection: when the character following the insertion
is one of the four particle pairs, the repaired character is the pair's
after-consonant form exactly when the last character of the inserted text is
a Hangul syllable block with a nonzero trailing-consonant index, or is any
character outside the block range; otherwise it is the after-vowel form. -/
theorem particle_form_selection (w new : List Char) (j : Nat) (ch lc : Char)
    (pr : Char × Char) (hch : w[j]? = some ch) (hpr : josaPairOf ch = some pr)
    (hlast : new.getLast? = some lc) :
    (josaFix w j new)[j]? =
      some (if (0xAC00 ≤ lc.toNat ∧ lc.toNat ≤ 0xD7A3 ∧ (lc.toNat - 0xAC00) % 28 ≠ 0)
              ∨ ¬ (0xAC00 ≤ lc.toNat ∧ lc.toNat ≤ 0xD7A3)
            then pr.1 else pr.2) := by
  have hj : j < w.length := by
    by_contra hle
    rw [List.getElem?_eq_none (by omega)] at hch
    exact Option.noConfusion hch
  have hsel :
      (if has_final_consonant lc then pr.1 else pr.2) =
        (if (0xAC00 ≤ lc.toNat ∧ lc.toNat ≤ 0xD7A3 ∧ (lc.toNat - 0xAC00) % 28 ≠ 0)
              ∨ ¬ (0xAC00 ≤ lc.toNat ∧ lc.toNat ≤ 0xD7A3)
            then pr.1 else pr.2) := by
    by_cases hfc : has_final_consonant lc = true
    · rw [if_pos hfc, if_pos ((has_final_consonant_iff lc).mp hfc)]
    · rw [if_neg (by simpa using hfc),
        if_neg (fun hcl => hfc ((has_final_consonant_iff lc).mpr hcl))]
  by_cases hne : ch ≠ (if has_final_consonant lc then pr.1 else pr.2)
  · have : josaFix w j new = w.take j ++
        (if has_final_consonant lc then pr.1 else pr.2) :: w.drop (j+1) := by
      simp only [josaFix, hch, hpr, hlast, if_pos hne]
    rw [this, splice_getElem _ hj, hsel]
  · have : josaFix w j new = w := by
      simp only [josaFix, hch, hpr, hlast, if_neg hne]
    rw [this, hch]
    push_neg at hne
    rw [hne, hsel]

/-- C2 witness: replacing with `고블린` (ends in a consonant-final block)
before the particle `가` repairs it to `이`. -/
theorem particle_form_selection_witness :
    (josaFix "엘프가 온다".data 2 "고블린".data)[2]? = some '이' := by
  have h := particle_form_selection "엘프가 온다".data "고블린".data 2 '가' '린'
    ('이', '가') (by decide) (by decide) (by decide)
  rw [h]
  decide

/-! ## C7: idempotence of the particle repair. -/

/-- Both members of a particle pair map back to the same pair. -/
theorem josaPairOf_members {ch : Char} {pr : Char × Char}
    (h : josaPairOf ch = some pr) :
    josaPairOf pr.1 = some pr ∧ josaPairOf pr.2 = some pr := by
  unfold josaPairOf at h
  split_ifs at h <;> (injection h with h; subst h; exact ⟨by decide, by decide⟩)

/-- If the particle character already has the correct form for the inserted
text, the repair leaves the text unchanged. -/
theorem josaFix_noop_of_correct {w new : List Char} {j : Nat} {ch lc : Char}
    {pr : Char × Char} (hch : w[j]? = some ch) (hpr : josaPairOf ch = some pr)
    (hlast : new.getLast? = some lc)
    (heq : ch = if has_final_consonant lc then pr.1 else pr.2) :
    josaFix w j new = w := by
  have hne : ¬ (ch ≠ if has_final_consonant lc then pr.1 else pr.2) := by
    simpa using heq
  simp only [josaFix, hch, hpr, hlast, if_neg hne]

/-- Running the repair twice at the same position is the same as running it
once. -/
theorem josaFix_idem (w : List Char) (j : Nat) (new : List Char) :
    josaFix (josaFix w j new) j new = josaFix w j new := by
  rcases hw : w[j]? with _ | ch
  · have h0 : josaFix w j new = w := by simp only [josaFix, hw]
    rw [h0, h0]
  · rcases hpr : josaPairOf ch with _ | pr
    · have h0 : josaFix w j new = w := by simp only [josaFix, hw, hpr]
      rw [h0, h0]
    · rcases hl : new.getLast? with _ | lc
      · have h0 : josaFix w j new = w := by simp only [josaFix, hw, hpr, hl]
        rw [h0, h0]
      · by_cases hne : ch ≠ (if has_final_consonant lc then pr.1 else pr.2)
        · have hj : j < w.length := by
            by_contra hle
            rw [List.getElem?_eq_none (by omega)] at hw
            exact Option.noConfusion hw
          have h1 : josaFix w j new = w.take j ++
              (if has_final_consonant lc then pr.1 else pr.2) :: w.drop (j+1) := by
            simp only [josaFix, hw, hpr, hl, if_pos hne]
          rw [h1]
          refine josaFix_noop_of_correct (splice_getElem _ hj) ?_ hl rfl
          by_cases hfc : has_final_consonant lc = true
          · rw [if_pos hfc]; exact (josaPairOf_members hpr).1
          · rw [if_neg (by simpa using hfc)]; exact (josaPairOf_members hpr).2
        · have h0 : josaFix w j new = w := by
            simp only [josaFix, hw, hpr, hl, if_neg hne]
          rw [h0, h0]

/-- C7 — idempotence of particle repair: a text whose particle character
already has the correct form for the inserted text is left unchanged, and
applying the repair twice at the same position equals applying it once. -/
theorem particle_repair_idempotent :
    (∀ (w new : List Char) (j : Nat) (ch lc : Char) (pr : Char × Char),
      w[j]? = some ch → josaPairOf ch = some pr → new.getLast? = some lc →
      ch = (if has_final_consonant lc then pr.1 else pr.2) → josaFix w j new = w) ∧
    (∀ (w : List Char) (j : Nat) (new : List Char),
      josaFix (josaFix w j new) j new = josaFix w j new) :=
  ⟨fun _ _ _ _ _ _ hch hpr hl heq => josaFix_noop_of_correct hch hpr hl heq,
   fun w j new => josaFix_idem w j new⟩

/-- C7 witness: the already-correct text `"고블린이 온다"` is untouched, and the
repair of `"엘프가 온다"` (which rewrites the particle) is idempotent. -/
theorem particle_repair_idempotent_witness :
    josaFix "고블린이 온다".data 3 "고블린".data = "고블린이 온다".data ∧
    josaFix (josaFix "엘프가 온다".data 2 "고블린".data) 2 "고블린".data =
      josaFix "엘프가 온다".data 2 "고블린".data :=
  ⟨particle_repair_idempotent.1 "고블린이 온다".data "고블린".data 3 '이' '린' ('이', '가')
      (by decide) (by decide) (by decide) (by decide),
   particle_repair_idempotent.2 "엘프가 온다".data 2 "고블린".data⟩

/-! ## C3: ledger gating. -/

theorem lookupL_mem {pl : Ledger} {k : LKey} {v : LVal}
    (h : lookupL pl k = some v) : (k, v) ∈ pl := by
  induction pl with
  | nil => simp [lookupL] at h
  | cons e rest ih =>
    unfold lookupL at h
    by_cases he : e.1 = k
    · rw [if_pos he] at h
      injection h with h
      have : (k, v) = e := by
        rw [← he, ← h]
      rw [this]
      exact List.mem_cons_self e rest
    · rw [if_neg he] at h
      exact List.mem_cons_of_mem _ (ih h)

theorem lookupL_upsertL_self (pl : Ledger) (k : LKey) (v : LVal) :
    lookupL (upsertL pl k v) k = some v := by
  induction pl with
  | nil => simp [upsertL, lookupL]
  | cons e rest ih =>
    by_cases he : e.1 = k
    · simp [upsertL, lookupL, he]
    · simp only [upsertL, if_neg he, lookupL]
      exact ih

/-- C3 counterexample: the gate is not a pure equality test on the recorded
reference — an entry recording the empty reference is treated as absent
(Python truthiness of `log_entry`), so `should_apply` returns `true` right
after `record` with an empty reference, although a ledger entry whose
recorded source reference equals the query exists. -/
theorem ledger_gating_counterexample :
    should_apply (recordCard [] "7".data []) false "7".data [] = true ∧
    lookupL (recordCard [] "7".data []) (false, "7".data) = some (LVal.cardUrl []) ∧
    recordedRef (LVal.cardUrl []) = [] := by decide

/-- C3 (amended) — for a non-empty source reference the gating contract
holds: on a well-formed ledger `should_apply` is `false` iff an entry for the
resource records exactly that reference; immediately after `record` (card or
sleeve form) `should_apply` is `false` for the recorded reference and `true`
for every other reference. -/
theorem ledger_gating_amended (pl : Ledger) (sleeve : Bool) (id ref c : List Char)
    (href : ref ≠ []) :
    (WFLedger pl →
      (should_apply pl sleeve id ref = false ↔
        ∃ v, lookupL pl (sleeve, id) = some v ∧ recordedRef v = ref)) ∧
    should_apply (recordCard pl id ref) false id ref = false ∧
    should_apply (recordSleeve pl id ref c) true id ref = false ∧
    (∀ ref', ref' ≠ ref → should_apply (recordCard pl id ref) false id ref' = true) ∧
    (∀ ref', ref' ≠ ref → should_apply (recordSleeve pl id ref c) true id ref' = true) := by
  refine ⟨?_, ?_, ?_, ?_, ?_⟩
  · intro hwf
    unfold should_apply isPatchedSameUrl
    rcases hl : lookupL pl (sleeve, id) with _ | v
    · simp
    · have hv := hwf _ (lookupL_mem hl)
      simp only at hv
      cases sleeve with
      | true =>
        obtain ⟨u, b, huv⟩ := hv.2 rfl
        subst huv
        simp only [recordedRef, Bool.not_eq_false]
        constructor
        · intro h
          exact ⟨LVal.sleeveEntry u b, rfl, by simpa using h⟩
        · rintro ⟨v', hv', hr⟩
          injection hv' with hv'
          subst hv'
          simpa using hr
      | false =>
        obtain ⟨u, huv⟩ := hv.1 rfl
        subst huv
        simp only [recordedRef, Bool.not_eq_false]
        by_cases h0 : u = []
        · subst h0
          simp only [if_pos rfl]
          constructor
          · intro h
            exact absurd h (by simp)
          · rintro ⟨v', hv', hr⟩
            injection hv' with hv'
            subst hv'
            exact absurd hr.symm href
        · simp only [if_neg h0]
          constructor
          · intro h
            exact ⟨LVal.cardUrl u, rfl, by simpa using h⟩
          · rintro ⟨v', hv', hr⟩
            injection hv' with hv'
            subst hv'
            simpa using hr
  · unfold should_apply isPatchedSameUrl recordCard
    rw [lookupL_upsertL_self]
    simp [href]
  · unfold should_apply isPatchedSameUrl recordSleeve
    rw [lookupL_upsertL_self]
    simp
  · intro ref' hne
    have hRS : ref ≠ ref' := fun h => hne h.symm
    unfold should_apply isPatchedSameUrl recordCard
    rw [lookupL_upsertL_self]
    by_cases h0 : ref = []
    · simp [h0]
    · simp [h0, hRS]
  · intro ref' hne
    have hRS : ref ≠ ref' := fun h => hne h.symm
    unfold should_apply isPatchedSameUrl recordSleeve
    rw [lookupL_upsertL_self]
    simp [hRS]

/-- C3 witness: after recording url `u` for card `7`, re-querying `u` gates
the work off, and querying a different url `v` allows it. -/
theorem ledger_gating_amended_witness :
    should_apply (recordCard [] "7".data "u".data) false "7".data "u".data = false ∧
    should_apply (recordCard [] "7".data "u".data) false "7".data "v".data = true :=
  ⟨(ledger_gating_amended [] false "7".data "u".data "b".data (by decide)).2.1,
   (ledger_gating_amended [] false "7".data "u".data "b".data
      (by decide)).2.2.2.1 "v".data (by decide)⟩

/-! ## C8: ledger load tolerance. -/

/-- C8 — a missing, unreadable or malformed `patch_log.json` degrades to the
empty ledger instead of failing the run, and on the empty ledger every
`should_apply` query returns `true`. -/
theorem ledger_load_tolerant :
    loadPatchLog .fileAbsent = [] ∧ loadPatchLog .readFailed = [] ∧
    loadPatchLog .parseFailed = [] ∧
    (∀ (sleeve : Bool) (id ref : List Char),
      should_apply (loadPatchLog .fileAbsent) sleeve id ref = true) :=
  ⟨rfl, rfl, rfl, fun _ _ _ => rfl⟩

/-! ## C5: resolver precedence. -/

/-- C5 counterexample: the interchangeable name `"A"` is present but has no
catalog entry while the title name `"B"` does; the resolver returns nothing
instead of retrying the lookup with the title name. -/
theorem resolver_retry_counterexample :
    resolveArtUrl [("b".data, some "http".data)] (some "A".data) (some "B".data) = none ∧
    lookupCatalog [("b".data, some "http".data)]
      (normalize_name "B".data) = some (some "http".data) := by
  constructor <;> rfl

/-- C5 (amended) — precedence: a truthy interchangeable name is always the
catalog key and a missing/empty interchangeable slot falls back to the title
name; the only retry in the program is at name-resolution time in
`get_target_card_data` (a missing localization row for the preferred slot
falls back to the other slot's row); a resolved name whose catalog lookup
fails is simply unresolved — there is no second catalog lookup. -/
theorem resolver_precedence_amended :
    (∀ (inter : List Char) (title : Option (List Char)), inter ≠ [] →
      chosenName (some inter) title = some inter) ∧
    (∀ (title : List Char), title ≠ [] →
      chosenName none (some title) = some title ∧
      chosenName (some []) (some title) = some title) ∧
    (∀ (n : Int) (titleId : Option Int) (titleLoc : Option (List Char)), n ≠ 0 →
      primaryName (some n) titleId none titleLoc = titleLoc) ∧
    (∀ (n : Int) (titleId : Option Int) (l : List Char)
        (titleLoc : Option (List Char)), n ≠ 0 →
      primaryName (some n) titleId (some l) titleLoc = some l) ∧
    (∀ (cat : List (List Char × Option (List Char)))
        (inter title : Option (List Char)) (nm : List Char),
      chosenName inter title = some nm →
      lookupCatalog cat (normalize_name nm) = none →
      resolveArtUrl cat inter title = none) := by
  refine ⟨?_, ?_, ?_, ?_, ?_⟩
  · intro inter title h
    simp [chosenName, pyOrStr, h]
  · intro title h
    exact ⟨by simp [chosenName, pyOrStr, h], by simp [chosenName, pyOrStr, h]⟩
  · intro n titleId titleLoc hn
    simp [primaryName, hn]
  · intro n titleId l titleLoc hn
    simp [primaryName, hn]
  · intro cat inter title nm hnm hcat
    simp only [resolveArtUrl, hnm, hcat]

/-- C5 witness for the amended precedence/no-retry statement. -/
theorem resolver_precedence_amended_witness :
    chosenName (some "A".data) (some "B".data) = some "A".data ∧
    chosenName none (some "B".data) = some "B".data ∧
    primaryName (some 5) (some 9) none (some "t".data) = some "t".data ∧
    primaryName (some 5) (some 9) (some "i".data) (some "t".data) = some "i".data ∧
    resolveArtUrl [] (some "A".data) (some "B".data) = none :=
  ⟨resolver_precedence_amended.1 "A".data (some "B".data) (by decide),
   (resolver_precedence_amended.2.1 "B".data (by decide)).1,
   resolver_precedence_amended.2.2.1 5 (some 9) (some "t".data) (by decide),
   resolver_precedence_amended.2.2.2.1 5 (some 9) "i".data (some "t".data) (by decide),
   resolver_precedence_amended.2.2.2.2 [] (some "A".data) (some "B".data) "A".data
     rfl rfl⟩

/-! ## C10: termination of the Korean replacement loop. -/

theorem strFindIdx_some {s sub : List Char} {n : Nat}
    (h : strFindIdx s sub = some n) :
    sub.isPrefixOf (s.drop n) ∧ n + sub.length ≤ s.length := by
  induction s generalizing n with
  | nil =>
    unfold strFindIdx at h
    by_cases hp : sub.isPrefixOf ([] : List Char)
    · rw [if_pos hp] at h
      injection h with h
      subst h
      refine ⟨hp, ?_⟩
      cases sub with
      | nil => simp
      | cons a t => simp [List.isPrefixOf] at hp
    · rw [if_neg hp] at h
      exact Option.noConfusion h
  | cons c t ih =>
    unfold strFindIdx at h
    by_cases hp : sub.isPrefixOf (c :: t)
    · rw [if_pos hp] at h
      injection h with h
      subst h
      refine ⟨hp, ?_⟩
      have := List.IsPrefix.length_le (List.isPrefixOf_iff_prefix.mp hp)
      simpa using this
    · rw [if_neg hp] at h
      rcases Option.map_eq_some'.mp h with ⟨m, hm, hn⟩
      obtain ⟨h1, h2⟩ := ih hm
      subst hn
      exact ⟨by simpa using h1, by simp; omega⟩

theorem findFrom_some {w old : List Char} {start idx : Nat}
    (h : findFrom w old start = some idx) :
    start ≤ idx ∧ old.isPrefixOf (w.drop idx) ∧ idx + old.length ≤ w.length := by
  unfold findFrom at h
  by_cases hs : start ≤ w.length
  · rw [if_pos hs] at h
    rcases Option.map_eq_some'.mp h with ⟨m, hm, hidx⟩
    obtain ⟨h1, h2⟩ := strFindIdx_some hm
    subst hidx
    refine ⟨by omega, ?_, ?_⟩
    · rwa [List.drop_drop, Nat.add_comm] at h1
    · rw [List.length_drop] at h2
      omega
  · rw [if_neg hs] at h
    exact Option.noConfusion h

theorem josaFix_length (w : List Char) (j : Nat) (new : List Char) :
    (josaFix w j new).length = w.length := by
  rcases hw : w[j]? with _ | ch
  · simp only [josaFix, hw]
  · have hj : j < w.length := by
      by_contra hle
      rw [List.getElem?_eq_none (by omega)] at hw
      exact Option.noConfusion hw
    rcases hpr : josaPairOf ch with _ | pr
    · simp only [josaFix, hw, hpr]
    · rcases hl : new.getLast? with _ | lc
      · simp only [josaFix, hw, hpr, hl]
      · by_cases hne : ch ≠ (if has_final_consonant lc then pr.1 else pr.2)
        · simp only [josaFix, hw, hpr, hl, if_pos hne]
          exact splice_length _ hj
        · simp only [josaFix, hw, hpr, hl, if_neg hne]

theorem koLoopF_term_aux (old new : List Char) (hold : old ≠ []) :
    ∀ (m : Nat) (work : List Char) (start : Nat), work.length - start ≤ m →
      ∃ r, ∀ f, work.length - start + 1 ≤ f → koLoopF f old new work start = some r := by
  intro m
  induction m with
  | zero =>
    intro work start h
    refine ⟨work, fun f hf => ?_⟩
    cases f with
    | zero => omega
    | succ f' =>
      have hs : ¬ start < work.length := by omega
      simp [koLoopF, hs]
  | succ m ih =>
    intro work start h
    by_cases hs : start < work.length
    case neg =>
      refine ⟨work, fun f hfl => ?_⟩
      cases f with
      | zero => omega
      | succ f' => simp [koLoopF, hs]
    · rcases hf : findFrom work old start with _ | idx
      · refine ⟨work, fun f hfl => ?_⟩
        cases f with
        | zero => omega
        | succ f' => simp [koLoopF, hs, hf]
      · obtain ⟨hsi, hpre, hbound⟩ := findFrom_some hf
        have holdlen : 1 ≤ old.length := by
          cases old with
          | nil => exact absurd rfl hold
          | cons a t => simp
        have hidxlt : idx < work.length := by omega
        have hw1len : (work.take idx ++ new ++ work.drop (idx + old.length)).length
            = idx + new.length + (work.length - (idx + old.length)) := by
          simp [List.length_append, List.length_take, List.length_drop]
          omega
        have hw2len :
            (josaFix (work.take idx ++ new ++ work.drop (idx + old.length))
              (idx + new.length) new).length
            = idx + new.length + (work.length - (idx + old.length)) := by
          rw [josaFix_length]
          exact hw1len
        have hmeas :
            (josaFix (work.take idx ++ new ++ work.drop (idx + old.length))
              (idx + new.length) new).length - (idx + new.length) ≤ m := by
          rw [hw2len]
          omega
        obtain ⟨r, hr⟩ := ih _ (idx + new.length) hmeas
        refine ⟨r, fun f hfl => ?_⟩
        cases f with
        | zero => omega
        | succ f' =>
          have hstep : koLoopF (f' + 1) old new work start
              = koLoopF f' old new
                  (josaFix (work.take idx ++ new ++ work.drop (idx + old.length))
                    (idx + new.length) new) (idx + new.length) := by
            simp [koLoopF, hs, hf]
          rw [hstep]
          exact hr f' (by rw [hw2len]; omega)

/-- C10 — for every nonempty `old` the per-pair Korean replacement loop
terminates (a fuel of `len(work) - start + 1` iterations always suffices,
and any larger fuel returns the same text), and because the scan position
advances past each inserted `new`, a match of `old` inside just-inserted
text is never replaced: replacing `"a"` by `"aa"` in `"aba"` stops at
`"aabaa"`. -/
theorem korean_loop_terminates :
    (∀ (old new work : List Char) (start : Nat), old ≠ [] →
      ∃ r, ∀ f, work.length - start + 1 ≤ f → koLoopF f old new work start = some r) ∧
    koReplacePair "aba".data "a".data "aa".data = some "aabaa".data :=
  ⟨fun old new work start hold => koLoopF_term_aux old new hold _ work start le_rfl,
   by decide⟩

/-- C10 witness: the loop for the pair `("a", "bb")` on `"xax"` terminates
within its fuel bound. -/
theorem korean_loop_terminates_witness :
    ∃ r, ∀ f, ("xax".data).length - 0 + 1 ≤ f →
      koLoopF f "a".data "bb".data "xax".data 0 = some r :=
  korean_loop_terminates.1 "a".data "bb".data "xax".data 0 (by decide)

/-! ## C4: a replacement pair with an empty `old` is not a no-op. -/

theorem gapInsert_length (t news : List Char) :
    (gapInsert t news).length = t.length + (t.length + 1) * news.length := by
  induction t with
  | nil => simp [gapInsert]
  | cons c t ih =>
    simp only [gapInsert, List.length_append, List.length_cons, ih]
    ring

/-- C4 counterexample: a pair with an empty `old` substitutes into every
character gap (Python `str.replace` semantics), so the call is not a no-op. -/
theorem empty_old_counterexample :
    substituteEn "ab".data [] [(([] : List Char), "X".data)] ≠ "ab".data ∧
    substituteEn "ab".data [] [(([] : List Char), "X".data)] = "XaXbX".data := by
  constructor
  · decide
  · rfl

theorem koLoopF_empty_old_aux (news : List Char) (hnews : news ≠ []) :
    ∀ (f : Nat) (work : List Char) (start : Nat), start < work.length →
      koLoopF f [] news work start = none := by
  intro f
  induction f with
  | zero => intro work start _; rfl
  | succ f ih =>
    intro work start hs
    have hfind : findFrom work ([] : List Char) start = some start := by
      unfold findFrom
      rw [if_pos (by omega)]
      unfold strFindIdx
      rw [if_pos (by cases work.drop start <;> rfl)]
      simp
    have hstep : koLoopF (f + 1) [] news work start
        = koLoopF f [] news
            (josaFix (work.take start ++ news ++ work.drop (start + 0))
              (start + news.length) news) (start + news.length) := by
      simp [koLoopF, hs, hfind]
    rw [hstep]
    refine ih _ (start + news.length) ?_
    rw [josaFix_length]
    have h1 : 1 ≤ news.length := by
      cases news with
      | nil => exact absurd rfl hnews
      | cons a t => simp
    simp [List.length_append, List.length_take, List.length_drop]
    omega

/-- C4 (amended) — a pair whose `old` is empty is not a no-op: the English
branch inserts `new` into every character gap (so the text strictly grows),
and the Korean per-occurrence loop never terminates on a nonempty text
(no amount of fuel completes it). -/
theorem empty_old_amended :
    (∀ (t news : List Char), news ≠ [] →
      substituteEn t [] [(([] : List Char), news)] ≠ t) ∧
    (∀ (f : Nat) (t news : List Char), t ≠ [] → news ≠ [] →
      koLoopF f [] news t 0 = none) := by
  constructor
  · intro t news hnews heq
    have hform : substituteEn t [] [(([] : List Char), news)] = gapInsert t news := rfl
    rw [hform] at heq
    have hlen := congrArg List.length heq
    rw [gapInsert_length] at hlen
    have h1 : 1 ≤ news.length := by
      cases news with
      | nil => exact absurd rfl hnews
      | cons a t => simp
    have h2 : 1 ≤ (t.length + 1) * news.length := Nat.mul_pos (by omega) (by omega)
    omega
  · intro f t news ht hnews
    refine koLoopF_empty_old_aux news hnews f t 0 ?_
    cases t with
    | nil => exact absurd rfl ht
    | cons a t => simp

/-- C4 witness for the amended statement. -/
theorem empty_old_amended_witness :
    substituteEn "ab".data [] [(([] : List Char), "X".data)] ≠ "ab".data ∧
    koLoopF 1000 [] "X".data "ab".data 0 = none :=
  ⟨empty_old_amended.1 "ab".data "X".data (by decide),
   empty_old_amended.2 1000 "ab".data "X".data (by decide) (by decide)⟩

/-! ## Unfold equations for the fuel-based string primitives. -/

theorem isPrefixOf_nil_false {old : List Char} (h : old ≠ []) :
    old.isPrefixOf ([] : List Char) = false := by
  cases old with
  | nil => exact absurd rfl h
  | cons a t => rfl

theorem length_pos_of_ne_nil {l : List Char} (h : l ≠ []) : 1 ≤ l.length := by
  cases l with
  | nil => exact absurd rfl h
  | cons a t => simp

theorem pyReplaceAux_fuel {old : List Char} (hold : old ≠ []) :
    ∀ (f g : Nat) (s new : List Char), s.length ≤ f → s.length ≤ g →
      pyReplaceAux s old new f = pyReplaceAux s old new g := by
  intro f
  induction f with
  | zero =>
    intro g s new hf hg
    have hs : s = [] := by
      cases s with
      | nil => rfl
      | cons a t => simp at hf
    subst hs
    cases g with
    | zero => rfl
    | succ g => simp [pyReplaceAux, isPrefixOf_nil_false hold]
  | succ f ih =>
    intro g s new hf hg
    cases g with
    | zero =>
      have hs : s = [] := by
        cases s with
        | nil => rfl
        | cons a t => simp at hg
      subst hs
      simp [pyReplaceAux, isPrefixOf_nil_false hold]
    | succ g =>
      show pyReplaceAux s old new (f+1) = pyReplaceAux s old new (g+1)
      unfold pyReplaceAux
      by_cases hp : old.isPrefixOf s
      · rw [if_pos hp, if_pos hp]
        have hlen : (s.drop old.length).length ≤ f := by
          rw [List.length_drop]
          have := length_pos_of_ne_nil hold
          omega
        have hlen' : (s.drop old.length).length ≤ g := by
          rw [List.length_drop]
          have := length_pos_of_ne_nil hold
          omega
        rw [ih g _ new hlen hlen']
      · rw [if_neg hp, if_neg hp]
        cases s with
        | nil => rfl
        | cons c t =>
          have hlen : t.length ≤ f := by simp at hf; omega
          have hlen' : t.length ≤ g := by simp at hg; omega
          show c :: pyReplaceAux t old new f = c :: pyReplaceAux t old new g
          rw [ih g t new hlen hlen']

theorem pyReplace_nil {old : List Char} (hold : old ≠ []) (new : List Char) :
    pyReplace [] old new = [] := by
  simp [pyReplace, hold, pyReplaceAux]

theorem pyReplace_pos {s old : List Char} (hold : old ≠ [])
    (hp : old.isPrefixOf s) (new : List Char) :
    pyReplace s old new = new ++ pyReplace (s.drop old.length) old new := by
  have hs : s ≠ [] := by
    intro h
    subst h
    rw [isPrefixOf_nil_false hold] at hp
    exact Bool.noConfusion hp
  have h1 := length_pos_of_ne_nil hold
  have hslen : 1 ≤ s.length := length_pos_of_ne_nil hs
  unfold pyReplace
  rw [if_neg hold, if_neg hold]
  obtain ⟨n, hn⟩ : ∃ n, s.length = n + 1 := ⟨s.length - 1, by omega⟩
  rw [hn]
  have step : pyReplaceAux s old new (n+1)
      = new ++ pyReplaceAux (s.drop old.length) old new n := by
    simp only [pyReplaceAux]
    rw [if_pos hp]
  rw [step]
  congr 1
  exact pyReplaceAux_fuel hold n (s.drop old.length).length _ new
    (by rw [List.length_drop]; omega) le_rfl

theorem pyReplace_neg {c : Char} {t old : List Char} (hold : old ≠ [])
    (hp : ¬ old.isPrefixOf (c :: t)) (new : List Char) :
    pyReplace (c :: t) old new = c :: pyReplace t old new := by
  unfold pyReplace
  rw [if_neg hold, if_neg hold]
  show pyReplaceAux (c :: t) old new (t.length + 1) = c :: pyReplaceAux t old new t.length
  simp only [pyReplaceAux]
  rw [if_neg hp]

theorem countOccAux_fuel {pat : List Char} (hpat : pat ≠ []) :
    ∀ (f g : Nat) (s : List Char), s.length ≤ f → s.length ≤ g →
      countOccAux s pat f = countOccAux s pat g := by
  intro f
  induction f with
  | zero =>
    intro g s hf hg
    have hs : s = [] := by
      cases s with
      | nil => rfl
      | cons a t => simp at hf
    subst hs
    cases g with
    | zero => rfl
    | succ g => simp [countOccAux, isPrefixOf_nil_false hpat]
  | succ f ih =>
    intro g s hf hg
    cases g with
    | zero =>
      have hs : s = [] := by
        cases s with
        | nil => rfl
        | cons a t => simp at hg
      subst hs
      simp [countOccAux, isPrefixOf_nil_false hpat]
    | succ g =>
      show countOccAux s pat (f+1) = countOccAux s pat (g+1)
      unfold countOccAux
      by_cases hp : pat.isPrefixOf s
      · rw [if_pos hp, if_pos hp]
        have h1 := length_pos_of_ne_nil hpat
        have hlen : (s.drop pat.length).length ≤ f := by
          rw [List.length_drop]; omega
        have hlen' : (s.drop pat.length).length ≤ g := by
          rw [List.length_drop]; omega
        rw [ih g _ hlen hlen']
      · rw [if_neg hp, if_neg hp]
        cases s with
        | nil => rfl
        | cons c t =>
          have hlen : t.length ≤ f := by simp at hf; omega
          have hlen' : t.length ≤ g := by simp at hg; omega
          show countOccAux t pat f = countOccAux t pat g
          rw [ih g t hlen hlen']

theorem pyCount_nil {pat : List Char} (hpat : pat ≠ []) : pyCount [] pat = 0 := by
  simp [pyCount, hpat, countOccAux]

theorem pyCount_pos {s pat : List Char} (hpat : pat ≠ [])
    (hp : pat.isPrefixOf s) :
    pyCount s pat = 1 + pyCount (s.drop pat.length) pat := by
  have hs : s ≠ [] := by
    intro h
    subst h
    rw [isPrefixOf_nil_false hpat] at hp
    exact Bool.noConfusion hp
  have h1 := length_pos_of_ne_nil hpat
  have hslen : 1 ≤ s.length := length_pos_of_ne_nil hs
  unfold pyCount
  rw [if_neg hpat, if_neg hpat]
  obtain ⟨n, hn⟩ : ∃ n, s.length = n + 1 := ⟨s.length - 1, by omega⟩
  rw [hn]
  have step : countOccAux s pat (n+1) = 1 + countOccAux (s.drop pat.length) pat n := by
    simp only [countOccAux]
    rw [if_pos hp]
  rw [step]
  congr 1
  exact countOccAux_fuel hpat n (s.drop pat.length).length _
    (by rw [List.length_drop]; omega) le_rfl

theorem pyCount_neg {c : Char} {t pat : List Char} (hpat : pat ≠ [])
    (hp : ¬ pat.isPrefixOf (c :: t)) :
    pyCount (c :: t) pat = pyCount t pat := by
  unfold pyCount
  rw [if_neg hpat, if_neg hpat]
  show countOccAux (c :: t) pat (t.length + 1) = countOccAux t pat t.length
  simp only [countOccAux]
  rw [if_neg hp]

theorem containsSub_cons_elim {c : Char} {t sub : List Char}
    (h : containsSub (c :: t) sub = false) :
    ¬ sub.isPrefixOf (c :: t) ∧ containsSub t sub = false := by
  unfold containsSub at h
  by_cases hp : sub.isPrefixOf (c :: t)
  · rw [if_pos hp] at h
    exact Bool.noConfusion h
  · rw [if_neg hp] at h
    exact ⟨hp, h⟩

theorem pyReplace_id_of_not_contains {s old : List Char} (hold : old ≠ [])
    (h : containsSub s old = false) (new : List Char) :
    pyReplace s old new = s := by
  induction s with
  | nil => exact pyReplace_nil hold new
  | cons c t ih =>
    obtain ⟨hp, ht⟩ := containsSub_cons_elim h
    rw [pyReplace_neg hold hp, ih ht]

theorem pyCount_zero_of_not_contains {s pat : List Char} (hpat : pat ≠ [])
    (h : containsSub s pat = false) : pyCount s pat = 0 := by
  induction s with
  | nil => exact pyCount_nil hpat
  | cons c t ih =>
    obtain ⟨hp, ht⟩ := containsSub_cons_elim h
    rw [pyCount_neg hpat hp]
    exact ih ht

/-! ## C1/C6 machinery: texts interleaving sentinel blocks with
sentinel-free characters, for a single protected term. -/

/-- The sentinel of the single protected term, `__PROTECTED_0__`. -/
def sent0 : List Char := sentinelTok 0

theorem isPrefixOf_head_mem {p : List Char} {c : Char} {t : List Char}
    (hp : p ≠ []) (h : p.isPrefixOf (c :: t)) : c ∈ p := by
  cases p with
  | nil => exact absurd rfl hp
  | cons a p' =>
    have h' : (a == c && p'.isPrefixOf t) = true := h
    rw [Bool.and_eq_true, beq_iff_eq] at h'
    rw [h'.1]
    exact List.mem_cons_self c p'

/-- A text made of sentinel-free characters interleaved with `n` occurrences
of the sentinel block. -/
inductive GoodMix : List Char → Nat → Prop where
  | nil : GoodMix [] 0
  | good {c : Char} {w : List Char} {n : Nat} :
      c ∉ sent0 → GoodMix w n → GoodMix (c :: w) n
  | block {w : List Char} {n : Nat} : GoodMix w n → GoodMix (sent0 ++ w) (n + 1)

/-- Text `t` contains `n` pairwise disjoint occurrences of `p`. -/
inductive HasDisj (p : List Char) : List Char → Nat → Prop where
  | zero (t : List Char) : HasDisj p t 0
  | more {v : List Char} {n : Nat} (u : List Char) :
      HasDisj p v n → HasDisj p (u ++ (p ++ v)) (n + 1)

theorem goodmix_prepend {u w : List Char} {n : Nat} (hu : ∀ c ∈ u, c ∉ sent0)
    (h : GoodMix w n) : GoodMix (u ++ w) n := by
  induction u with
  | nil => simpa
  | cons c u' ih =>
    exact GoodMix.good (hu c (by simp)) (ih (fun d hd => hu d (by simp [hd])))

theorem goodmix_drop {old : List Char} (hog : ∀ c ∈ old, c ∉ sent0) :
    ∀ {w : List Char} {n : Nat}, GoodMix w n → old.isPrefixOf w →
      GoodMix (w.drop old.length) n := by
  induction old with
  | nil =>
    intro w n h _
    simpa
  | cons o ot ih =>
    intro w n h hp
    cases h with
    | nil =>
      rw [isPrefixOf_nil_false (by simp)] at hp
      exact Bool.noConfusion hp
    | @good c w' n hc hw =>
      have hp' : (o == c && ot.isPrefixOf w') = true := hp
      rw [Bool.and_eq_true, beq_iff_eq] at hp'
      have hot : ∀ d ∈ ot, d ∉ sent0 := fun d hd => hog d (by simp [hd])
      simpa using ih hot hw hp'.2
    | @block w' n hw =>
      exfalso
      obtain ⟨d, ss, hds⟩ : ∃ d ss, sent0 = d :: ss := by
        cases hsent : sent0 with
        | nil => exact absurd hsent (by decide)
        | cons d ss => exact ⟨d, ss, rfl⟩
      rw [hds, List.cons_append] at hp
      have h' : (o == d && ot.isPrefixOf (ss ++ w')) = true := hp
      rw [Bool.and_eq_true, beq_iff_eq] at h'
      refine hog o (by simp) ?_
      rw [h'.1, hds]
      exact List.mem_cons_self d ss

theorem goodmix_protect {p : List Char} (hp : p ≠ []) :
    ∀ (N : Nat) (s : List Char), s.length ≤ N → (∀ c ∈ s, c ∉ sent0) →
      GoodMix (pyReplace s p sent0) (pyCount s p) := by
  intro N
  induction N with
  | zero =>
    intro s h _
    have hs : s = [] := by
      cases s with
      | nil => rfl
      | cons a t => simp at h
    subst hs
    rw [pyReplace_nil hp _, pyCount_nil hp]
    exact .nil
  | succ N ih =>
    intro s hlen hg
    by_cases hpre : p.isPrefixOf s
    · rw [pyReplace_pos hp hpre, pyCount_pos hp hpre]
      have hpl := length_pos_of_ne_nil hp
      have hdl : (s.drop p.length).length ≤ N := by
        rw [List.length_drop]; omega
      have hgd : ∀ c ∈ s.drop p.length, c ∉ sent0 :=
        fun c hc => hg c (List.drop_subset _ _ hc)
      have hb := GoodMix.block (ih _ hdl hgd)
      rwa [Nat.add_comm] at hb
    · cases s with
      | nil =>
        rw [pyReplace_nil hp _, pyCount_nil hp]
        exact .nil
      | cons c t =>
        rw [pyReplace_neg hp hpre, pyCount_neg hp hpre]
        exact .good (hg c (by simp))
          (ih t (by simp at hlen; omega) (fun d hd => hg d (by simp [hd])))

theorem pyReplace_bad_block {old new : List Char} (hold : old ≠ [])
    (hog : ∀ c ∈ old, c ∉ sent0) :
    ∀ (b w : List Char), (∀ c ∈ b, c ∈ sent0) →
      pyReplace (b ++ w) old new = b ++ pyReplace w old new := by
  intro b
  induction b with
  | nil => intro w _; simp
  | cons d b' ih =>
    intro w hb
    have hnp : ¬ old.isPrefixOf (d :: (b' ++ w)) := by
      intro hcontra
      exact hog d (isPrefixOf_head_mem hold hcontra) (hb d (by simp))
    rw [List.cons_append, pyReplace_neg hold hnp, ih w (fun c hc => hb c (by simp [hc]))]
    rfl

theorem goodmix_replace {old new : List Char} (hold : old ≠ [])
    (hog : ∀ c ∈ old, c ∉ sent0) (hng : ∀ c ∈ new, c ∉ sent0) :
    ∀ (N : Nat) (w : List Char) (n : Nat), w.length ≤ N → GoodMix w n →
      GoodMix (pyReplace w old new) n := by
  intro N
  induction N with
  | zero =>
    intro w n hlen h
    have hw : w = [] := by
      cases w with
      | nil => rfl
      | cons a t => simp at hlen
    subst hw
    cases h
    rw [pyReplace_nil hold]
    exact .nil
  | succ N ih =>
    intro w n hlen h
    cases h with
    | nil =>
      rw [pyReplace_nil hold]
      exact .nil
    | good hc hw =>
      rename_i c w'
      by_cases hpre : old.isPrefixOf (c :: w')
      · rw [pyReplace_pos hold hpre]
        have hdrop := goodmix_drop hog (GoodMix.good hc hw) hpre
        have hpl := length_pos_of_ne_nil hold
        refine goodmix_prepend hng (ih _ _ ?_ hdrop)
        rw [List.length_drop]
        simp only [List.length_cons] at hlen ⊢
        omega
      · rw [pyReplace_neg hold hpre]
        exact .good hc (ih w' _ (by simp at hlen; omega) hw)
    | block hw =>
      rename_i w' m
      rw [pyReplace_bad_block hold hog sent0 w' (fun c hc => hc)]
      refine .block (ih w' _ ?_ hw)
      have hs0 : 1 ≤ sent0.length := by decide
      simp only [List.length_append] at hlen
      omega

theorem hasdisj_cons {p : List Char} {c : Char} {t : List Char} {n : Nat}
    (h : HasDisj p t n) : HasDisj p (c :: t) n := by
  cases h with
  | zero => exact .zero _
  | more u hv =>
    have := HasDisj.more (c :: u) hv
    simpa using this

theorem goodmix_restore {p : List Char} :
    ∀ {w : List Char} {n : Nat}, GoodMix w n → HasDisj p (pyReplace w sent0 p) n := by
  have hs0 : sent0 ≠ [] := by decide
  intro w n h
  induction h with
  | nil =>
    rw [pyReplace_nil hs0]
    exact .zero _
  | @good c w' m hc hw ih =>
    have hnp : ¬ sent0.isPrefixOf (c :: w') :=
      fun hcon => hc (isPrefixOf_head_mem hs0 hcon)
    rw [pyReplace_neg hs0 hnp]
    exact hasdisj_cons ih
  | @block w' m hw ih =>
    have hpre : sent0.isPrefixOf (sent0 ++ w') := by
      rw [List.isPrefixOf_iff_prefix]
      exact List.prefix_append _ _
    rw [pyReplace_pos hs0 hpre, List.drop_left]
    have := HasDisj.more ([] : List Char) ih
    simpa using this

theorem pyCount_mono_aux {p : List Char} (hp : p ≠ []) :
    ∀ (L : Nat),
      (∀ (w v : List Char), w.length + v.length ≤ L →
        pyCount v p ≤ pyCount (w ++ v) p) ∧
      (∀ (v : List Char) (j : Nat), j ≤ p.length → v.length ≤ L →
        pyCount v p ≤ 1 + pyCount (v.drop j) p) := by
  intro L
  induction L with
  | zero =>
    constructor
    · intro w v h
      have hw : w = [] := by
        cases w with
        | nil => rfl
        | cons a t => simp at h
      subst hw
      simp
    · intro v j _ hv
      have hv0 : v = [] := by
        cases v with
        | nil => rfl
        | cons a t => simp at hv
      subst hv0
      simp [pyCount_nil hp]
  | succ L ihL =>
    obtain ⟨ihM, ihN⟩ := ihL
    constructor
    · intro w v hlen
      cases w with
      | nil => simp
      | cons c w' =>
        rw [List.cons_append]
        by_cases hpre : p.isPrefixOf (c :: (w' ++ v))
        · rw [pyCount_pos hp hpre]
          have hpl := length_pos_of_ne_nil hp
          have hdrop : (c :: (w' ++ v)).drop p.length
              = (w' ++ v).drop (p.length - 1) := by
            obtain ⟨m, hm⟩ : ∃ m, p.length = m + 1 := ⟨p.length - 1, by omega⟩
            rw [hm]
            simp
          rw [hdrop]
          by_cases hcase : p.length - 1 ≤ w'.length
          · rw [List.drop_append_of_le_length hcase]
            have h1 := ihM (w'.drop (p.length - 1)) v
              (by rw [List.length_drop]; simp only [List.length_cons] at hlen; omega)
            omega
          · have heat : p.length - 1 = w'.length + (p.length - 1 - w'.length) := by omega
            rw [heat, List.drop_append]
            have h2 := ihN v (p.length - 1 - w'.length) (by omega)
              (by simp only [List.length_cons] at hlen; omega)
            omega
        · rw [pyCount_neg hp hpre]
          exact ihM w' v (by simp only [List.length_cons] at hlen; omega)
    · intro v j hj hv
      rcases Nat.eq_zero_or_pos j with hj0 | hjpos
      · subst hj0
        simp
      · cases v with
        | nil => simp [pyCount_nil hp]
        | cons c v' =>
          by_cases hpre : p.isPrefixOf (c :: v')
          · rw [pyCount_pos hp hpre]
            obtain ⟨rest, hrest⟩ : ∃ t, p ++ t = c :: v' :=
              List.isPrefixOf_iff_prefix.mp hpre
            have hdropP : (c :: v').drop p.length = rest := by
              rw [← hrest, List.drop_left]
            rw [hdropP]
            have hdropj : (c :: v').drop j = (p.drop j) ++ rest := by
              rw [← hrest, List.drop_append_of_le_length hj]
            rw [hdropj]
            have hlenpr : p.length + rest.length = v'.length + 1 := by
              have := congrArg List.length hrest
              simpa using this
            have h3 := ihM (p.drop j) rest
              (by rw [List.length_drop]; simp only [List.length_cons] at hv; omega)
            omega
          · rw [pyCount_neg hp hpre]
            have hdropj : (c :: v').drop j = v'.drop (j - 1) := by
              obtain ⟨m, hm⟩ : ∃ m, j = m + 1 := ⟨j - 1, by omega⟩
              rw [hm]
              simp
            rw [hdropj]
            exact ihN v' (j - 1) (by omega) (by simp only [List.length_cons] at hv; omega)

theorem pyCount_mono {p : List Char} (hp : p ≠ []) (w v : List Char) :
    pyCount v p ≤ pyCount (w ++ v) p :=
  (pyCount_mono_aux hp (w.length + v.length)).1 w v le_rfl

theorem pyCount_insert {p : List Char} (hp : p ≠ []) :
    ∀ (N : Nat) (u v : List Char) (n : Nat), u.length ≤ N → n ≤ pyCount v p →
      n + 1 ≤ pyCount (u ++ (p ++ v)) p := by
  intro N
  induction N with
  | zero =>
    intro u v n hu hn
    have hu0 : u = [] := by
      cases u with
      | nil => rfl
      | cons a t => simp at hu
    subst hu0
    rw [List.nil_append]
    have hpre : p.isPrefixOf (p ++ v) := by
      rw [List.isPrefixOf_iff_prefix]
      exact List.prefix_append _ _
    rw [pyCount_pos hp hpre, List.drop_left]
    omega
  | succ N ih =>
    intro u v n hu hn
    cases u with
    | nil =>
      rw [List.nil_append]
      have hpre : p.isPrefixOf (p ++ v) := by
        rw [List.isPrefixOf_iff_prefix]
        exact List.prefix_append _ _
      rw [pyCount_pos hp hpre, List.drop_left]
      omega
    | cons c u' =>
      rw [List.cons_append]
      by_cases hpre : p.isPrefixOf (c :: (u' ++ (p ++ v)))
      · rw [pyCount_pos hp hpre]
        have hpl := length_pos_of_ne_nil hp
        have hdrop : (c :: (u' ++ (p ++ v))).drop p.length
            = (u' ++ (p ++ v)).drop (p.length - 1) := by
          obtain ⟨m, hm⟩ : ∃ m, p.length = m + 1 := ⟨p.length - 1, by omega⟩
          rw [hm]
          simp
        rw [hdrop]
        by_cases hcase : p.length - 1 ≤ u'.length
        · rw [List.drop_append_of_le_length hcase]
          have h1 := ih (u'.drop (p.length - 1)) v n
            (by rw [List.length_drop]; simp only [List.length_cons] at hu; omega) hn
          omega
        · have heat : p.length - 1 = u'.length + (p.length - 1 - u'.length) := by omega
          rw [heat, List.drop_append]
          have hj : p.length - 1 - u'.length ≤ p.length := by omega
          have hdropj : (p ++ v).drop (p.length - 1 - u'.length)
              = (p.drop (p.length - 1 - u'.length)) ++ v :=
            List.drop_append_of_le_length hj
          rw [hdropj]
          have h2 := pyCount_mono hp (p.drop (p.length - 1 - u'.length)) v
          omega
      · rw [pyCount_neg hp hpre]
        exact ih u' v n (by simp only [List.length_cons] at hu; omega) hn

theorem hasdisj_le_count {p : List Char} (hp : p ≠ []) :
    ∀ {t : List Char} {n : Nat}, HasDisj p t n → n ≤ pyCount t p := by
  intro t n h
  induction h with
  | zero => omega
  | more u hv ih => exact pyCount_insert hp u.length u _ _ le_rfl ih

/-- The engine with a single protected term: protect it (when present),
run the replacement pairs, restore the sentinel. -/
theorem substituteEn_single (T p : List Char) (R : List (List Char × List Char)) :
    substituteEn T [p] R =
      if containsSub T p then
        pyReplace (R.foldl (fun w q => pyReplace w q.1 q.2) (pyReplace T p sent0)) sent0 p
      else R.foldl (fun w q => pyReplace w q.1 q.2) T := by
  by_cases hc : containsSub T p
  · simp [substituteEn, sortLenDesc, insLenDesc, protectLoop, hc, sent0]
  · simp [substituteEn, sortLenDesc, insLenDesc, protectLoop, hc]

theorem goodmix_fold :
    ∀ (R : List (List Char × List Char)),
      (∀ q ∈ R, q.1 ≠ [] ∧ (∀ c ∈ q.1, c ∉ sent0) ∧ (∀ c ∈ q.2, c ∉ sent0)) →
      ∀ (w : List Char) (n : Nat), GoodMix w n →
        GoodMix (R.foldl (fun w q => pyReplace w q.1 q.2) w) n := by
  intro R
  induction R with
  | nil =>
    intro _ w n h
    simpa
  | cons q R' ih =>
    intro hR w n h
    simp only [List.foldl_cons]
    obtain ⟨h1, h2, h3⟩ := hR q (by simp)
    exact ih (fun q' hq' => hR q' (by simp [hq'])) _ n
      (goodmix_replace h1 h2 h3 w.length w n le_rfl h)

/-- C1 (amended) — protection invariant: when the text and the replacement
pairs stay off the sentinel alphabet (and every `old` is nonempty), the
occurrences of the single protected term `p` all survive the substitution
(`p`'s occurrence count never decreases); and the spec's own example holds
verbatim: protecting `Elf Warrior` while replacing `Elf → Goblin` leaves the
`Elf` inside `Elf Warrior` intact and replaces only the standalone `Elf`. -/
theorem protection_invariant_amended (T p : List Char)
    (R : List (List Char × List Char)) (hp : p ≠ [])
    (hT : ∀ c ∈ T, c ∉ sentinelTok 0)
    (hR : ∀ q ∈ R, q.1 ≠ [] ∧ (∀ c ∈ q.1, c ∉ sentinelTok 0) ∧
      (∀ c ∈ q.2, c ∉ sentinelTok 0)) :
    pyCount T p ≤ pyCount (substituteEn T [p] R) p ∧
    substituteEn "An Elf Warrior fights an Elf.".data ["Elf Warrior".data]
        [("Elf".data, "Goblin".data)]
      = "An Elf Warrior fights an Goblin.".data := by
  constructor
  · rw [substituteEn_single]
    by_cases hc : containsSub T p
    · rw [if_pos hc]
      have hgm := goodmix_protect hp T.length T le_rfl hT
      have hgm2 := goodmix_fold R hR _ _ hgm
      exact hasdisj_le_count hp (goodmix_restore hgm2)
    · rw [if_neg hc, pyCount_zero_of_not_contains hp (by simpa using hc)]
      exact Nat.zero_le _
  · decide

/-- C1 counterexample to the unrestricted claim: with the replacement
`("_", "-")` — whose `old` does not even occur in the input — the occurrence
of the protected term `Elf Warrior` is destroyed, because the replacement
mutates the sentinel token and the restore step can no longer find it. -/
theorem protection_invariant_counterexample :
    containsSub "An Elf Warrior".data "Elf Warrior".data = true ∧
    containsSub
      (substituteEn "An Elf Warrior".data ["Elf Warrior".data]
        [("_".data, "-".data)])
      "Elf Warrior".data = false := by decide

/-- C1 witness (sentinel-free instance of the amended statement). -/
theorem protection_invariant_amended_witness :
    pyCount "an elf warrior fights an elf.".data "elf warrior".data ≤
      pyCount (substituteEn "an elf warrior fights an elf.".data
        ["elf warrior".data] [("elf".data, "goblin".data)]) "elf warrior".data ∧
    substituteEn "An Elf Warrior fights an Elf.".data ["Elf Warrior".data]
        [("Elf".data, "Goblin".data)]
      = "An Elf Warrior fights an Goblin.".data :=
  protection_invariant_amended "an elf warrior fights an elf.".data
    "elf warrior".data [("elf".data, "goblin".data)]
    (by decide) (by decide) (by decide)

/-! ## C6: idempotence of the substitution engine. -/

theorem roundtrip_aux {p : List Char} (hp : p ≠ []) :
    ∀ (N : Nat) (X : List Char), X.length ≤ N → (∀ c ∈ X, c ∉ sent0) →
      pyReplace (pyReplace X p sent0) sent0 p = X := by
  have hs0 : sent0 ≠ [] := by decide
  intro N
  induction N with
  | zero =>
    intro X hlen _
    have hX0 : X = [] := by
      cases X with
      | nil => rfl
      | cons a t => simp at hlen
    subst hX0
    rw [pyReplace_nil hp _, pyReplace_nil hs0]
  | succ N ih =>
    intro X hlen hX
    by_cases hpre : p.isPrefixOf X
    · have hXne : X ≠ [] := by
        intro h
        subst h
        rw [isPrefixOf_nil_false hp] at hpre
        exact Bool.noConfusion hpre
      rw [pyReplace_pos hp hpre]
      have hpre0 : sent0.isPrefixOf (sent0 ++ pyReplace (X.drop p.length) p sent0) := by
        rw [List.isPrefixOf_iff_prefix]
        exact List.prefix_append _ _
      rw [pyReplace_pos hs0 hpre0, List.drop_left]
      have hpl := length_pos_of_ne_nil hp
      have hXl := length_pos_of_ne_nil hXne
      rw [ih _ (by rw [List.length_drop]; omega)
        (fun d hd => hX d (List.drop_subset _ _ hd))]
      obtain ⟨rest, hrest⟩ : ∃ t, p ++ t = X := List.isPrefixOf_iff_prefix.mp hpre
      rw [← hrest, List.drop_left]
    · cases X with
      | nil => rw [pyReplace_nil hp _, pyReplace_nil hs0]
      | cons c t =>
        rw [pyReplace_neg hp hpre]
        have hc : c ∉ sent0 := hX c (by simp)
        have hnp0 : ¬ sent0.isPrefixOf (c :: pyReplace t p sent0) :=
          fun hcon => hc (isPrefixOf_head_mem hs0 hcon)
        rw [pyReplace_neg hs0 hnp0,
          ih t (by simp at hlen; omega) (fun d hd => hX d (by simp [hd]))]

/-- C6 (amended) — idempotence: re-running the substitution with no further
replacements returns the text unchanged, for a single protected term and a
substituted text that stays off the sentinel alphabet (the
protect-with-sentinel / restore round trip is then the identity). -/
theorem substitution_idempotent_amended (T p : List Char)
    (R : List (List Char × List Char)) (hp : p ≠ [])
    (hY : ∀ c ∈ substituteEn T [p] R, c ∉ sentinelTok 0) :
    substituteEn (substituteEn T [p] R) [p] [] = substituteEn T [p] R := by
  rw [substituteEn_single]
  by_cases hc : containsSub (substituteEn T [p] R) p
  · rw [if_pos hc]
    simp only [List.foldl_nil]
    exact roundtrip_aux hp _ _ le_rfl hY
  · rw [if_neg hc]
    simp only [List.foldl_nil]

/-- C6 counterexample to the unrestricted claim: with protected terms
`{ABCD, OTE}` the second term matches inside the first term's sentinel
token, so re-running the engine with no replacements turns `ABCD` into the
literal sentinel text instead of leaving it unchanged. -/
theorem substitution_idempotent_counterexample :
    substituteEn
        (substituteEn "Q".data ["ABCD".data, "OTE".data] [("Q".data, "ABCD".data)])
        ["ABCD".data, "OTE".data] []
      ≠ substituteEn "Q".data ["ABCD".data, "OTE".data] [("Q".data, "ABCD".data)] := by
  decide

/-- C6 witness (sentinel-free instance of the amended statement). -/
theorem substitution_idempotent_amended_witness :
    substituteEn (substituteEn "an elf".data ["elf".data]
        [("an".data, "the".data)]) ["elf".data] []
      = substituteEn "an elf".data ["elf".data] [("an".data, "the".data)] :=
  substitution_idempotent_amended "an elf".data "elf".data
    [("an".data, "the".data)] (by decide) (by decide)

/-! ## C9 machinery: the SEEK retranslation over two-character keywords. -/

theorem cons_isPrefixOf_cons_eq (a x : Char) (as r : List Char) :
    (a :: as).isPrefixOf (x :: r) = (a == x && as.isPrefixOf r) := rfl

theorem one_isPrefixOf_cons (b y : Char) (r : List Char) :
    [b].isPrefixOf (y :: r) = (b == y) := by
  rw [cons_isPrefixOf_cons_eq]
  rw [List.isPrefixOf_nil_left, Bool.and_true]

theorem not_two_prefix_head {a b x : Char} {r : List Char} (h : a ≠ x) :
    ¬ [a,b].isPrefixOf (x :: r) := by
  intro hcon
  rw [cons_isPrefixOf_cons_eq, Bool.and_eq_true, beq_iff_eq] at hcon
  exact h hcon.1

theorem isPrefixOf_append_self (p v : List Char) : p.isPrefixOf (p ++ v) = true := by
  rw [List.isPrefixOf_iff_prefix]
  exact List.prefix_append _ _

theorem containsSub_cons_false {ch : Char} {t sub : List Char}
    (h1 : ¬ sub.isPrefixOf (ch :: t)) (h2 : containsSub t sub = false) :
    containsSub (ch :: t) sub = false := by
  unfold containsSub
  rw [if_neg h1]
  exact h2

/-- After `s.replace([a,b], [c,d])` no occurrence of `[a,b]` remains,
provided the replacement text cannot recreate one (`c ≠ a`, `c ≠ b`,
`d ≠ a`). -/
theorem replace_no_old {a b c d : Char} (hca : c ≠ a) (hcb : c ≠ b)
    (hda : d ≠ a) :
    ∀ (N : Nat) (s : List Char), s.length ≤ N →
      containsSub (pyReplace s [a,b] [c,d]) [a,b] = false := by
  have hab : ([a,b] : List Char) ≠ [] := by simp
  intro N
  induction N with
  | zero =>
    intro s hlen
    have hs : s = [] := by
      cases s with
      | nil => rfl
      | cons x t => simp at hlen
    subst hs
    rw [pyReplace_nil hab]
    rfl
  | succ N ih =>
    intro s hlen
    by_cases hpre : ([a,b] : List Char).isPrefixOf s
    · obtain ⟨rest, hrest⟩ : ∃ t, [a,b] ++ t = s := List.isPrefixOf_iff_prefix.mp hpre
      subst hrest
      rw [pyReplace_pos hab hpre, List.drop_left]
      have hlr : rest.length ≤ N := by
        simp only [List.length_append, List.length_cons, List.length_nil] at hlen
        omega
      refine containsSub_cons_false (not_two_prefix_head (fun h => hca h.symm)) ?_
      exact containsSub_cons_false (not_two_prefix_head (fun h => hda h.symm)) (ih rest hlr)
    · cases s with
      | nil =>
        rw [pyReplace_nil hab]
        rfl
      | cons x t =>
        rw [pyReplace_neg hab hpre]
        have hlt : t.length ≤ N := by
          simp only [List.length_cons] at hlen
          omega
        refine containsSub_cons_false ?_ (ih t hlt)
        intro hcon
        rw [cons_isPrefixOf_cons_eq, Bool.and_eq_true, beq_iff_eq] at hcon
        obtain ⟨hax, hbR⟩ := hcon
        by_cases hpt : ([a,b] : List Char).isPrefixOf t
        · rw [pyReplace_pos hab hpt] at hbR
          rw [show ([c,d] : List Char) ++ pyReplace (t.drop ([a,b] : List Char).length) [a,b] [c,d]
              = c :: (d :: pyReplace (t.drop 2) [a,b] [c,d]) from rfl] at hbR
          rw [one_isPrefixOf_cons, beq_iff_eq] at hbR
          exact hcb hbR.symm
        · cases t with
          | nil =>
            rw [pyReplace_nil hab] at hbR
            exact Bool.noConfusion hbR
          | cons y t' =>
            rw [pyReplace_neg hab hpt, one_isPrefixOf_cons, beq_iff_eq] at hbR
            refine absurd ?_ hpre
            rw [cons_isPrefixOf_cons_eq, one_isPrefixOf_cons, hax, hbR]
            simp

/-- Text `t` is `s` with some non-overlapping occurrences of `old` replaced by
`new`. -/
inductive RepSome (old new : List Char) : List Char → List Char → Prop where
  | nil : RepSome old new [] []
  | keep (c : Char) {s t : List Char} :
      RepSome old new s t → RepSome old new (c :: s) (c :: t)
  | swap {s t : List Char} :
      RepSome old new s t → RepSome old new (old ++ s) (new ++ t)

theorem repsome_refl (old new : List Char) : ∀ s, RepSome old new s s := by
  intro s
  induction s with
  | nil => exact .nil
  | cons c t ih => exact .keep c ih

theorem repsome_pyReplace {old new : List Char} (hold : old ≠ []) :
    ∀ (N : Nat) (s : List Char), s.length ≤ N →
      RepSome old new s (pyReplace s old new) := by
  intro N
  induction N with
  | zero =>
    intro s hlen
    have hs : s = [] := by
      cases s with
      | nil => rfl
      | cons x t => simp at hlen
    subst hs
    rw [pyReplace_nil hold]
    exact .nil
  | succ N ih =>
    intro s hlen
    by_cases hpre : old.isPrefixOf s
    · obtain ⟨rest, hrest⟩ : ∃ t, old ++ t = s := List.isPrefixOf_iff_prefix.mp hpre
      subst hrest
      rw [pyReplace_pos hold hpre, List.drop_left]
      refine RepSome.swap (ih rest ?_)
      have := length_pos_of_ne_nil hold
      simp only [List.length_append] at hlen
      omega
    · cases s with
      | nil =>
        rw [pyReplace_nil hold]
        exact .nil
      | cons c t =>
        rw [pyReplace_neg hold hpre]
        exact .keep c (ih t (by simp at hlen; omega))

theorem pyReplaceCountAux_fuel {old : List Char} (hold : old ≠ []) :
    ∀ (f g : Nat) (s new : List Char) (k : Nat), s.length ≤ f → s.length ≤ g →
      pyReplaceCountAux s old new f k = pyReplaceCountAux s old new g k := by
  intro f
  induction f with
  | zero =>
    intro g s new k hf hg
    have hs : s = [] := by
      cases s with
      | nil => rfl
      | cons a t => simp at hf
    subst hs
    cases g with
    | zero => rfl
    | succ g =>
      cases k with
      | zero => rfl
      | succ k => simp [pyReplaceCountAux, isPrefixOf_nil_false hold]
  | succ f ih =>
    intro g s new k hf hg
    cases g with
    | zero =>
      have hs : s = [] := by
        cases s with
        | nil => rfl
        | cons a t => simp at hg
      subst hs
      cases k with
      | zero => rfl
      | succ k => simp [pyReplaceCountAux, isPrefixOf_nil_false hold]
    | succ g =>
      cases k with
      | zero => rfl
      | succ k =>
        show pyReplaceCountAux s old new (f+1) (k+1)
            = pyReplaceCountAux s old new (g+1) (k+1)
        unfold pyReplaceCountAux
        by_cases hp : old.isPrefixOf s
        · rw [if_pos hp, if_pos hp]
          have h1 := length_pos_of_ne_nil hold
          have hlen : (s.drop old.length).length ≤ f := by
            rw [List.length_drop]; omega
          have hlen' : (s.drop old.length).length ≤ g := by
            rw [List.length_drop]; omega
          rw [ih g _ new k hlen hlen']
        · rw [if_neg hp, if_neg hp]
          cases s with
          | nil => rfl
          | cons c t =>
            have hlen : t.length ≤ f := by simp at hf; omega
            have hlen' : t.length ≤ g := by simp at hg; omega
            show c :: pyReplaceCountAux t old new f (k+1)
                = c :: pyReplaceCountAux t old new g (k+1)
            rw [ih g t new (k+1) hlen hlen']

theorem pyReplaceCount_zero (s old new : List Char) :
    pyReplaceCount s old new 0 = s := by
  unfold pyReplaceCount
  cases hv : s.length with
  | zero => rfl
  | succ n => rfl

theorem pyReplaceCount_pos {s old : List Char} (hold : old ≠ [])
    (hp : old.isPrefixOf s) (new : List Char) (k : Nat) :
    pyReplaceCount s old new (k+1)
      = new ++ pyReplaceCount (s.drop old.length) old new k := by
  have hs : s ≠ [] := by
    intro h
    subst h
    rw [isPrefixOf_nil_false hold] at hp
    exact Bool.noConfusion hp
  have h1 := length_pos_of_ne_nil hold
  have hslen : 1 ≤ s.length := length_pos_of_ne_nil hs
  unfold pyReplaceCount
  obtain ⟨n, hn⟩ : ∃ n, s.length = n + 1 := ⟨s.length - 1, by omega⟩
  rw [hn]
  have step : pyReplaceCountAux s old new (n+1) (k+1)
      = new ++ pyReplaceCountAux (s.drop old.length) old new n k := by
    simp only [pyReplaceCountAux]
    rw [if_pos hp]
  rw [step]
  congr 1
  exact pyReplaceCountAux_fuel hold n (s.drop old.length).length _ new k
    (by rw [List.length_drop]; omega) le_rfl

theorem pyReplaceCount_neg {c : Char} {t old : List Char}
    (hp : ¬ old.isPrefixOf (c :: t)) (new : List Char) (k : Nat) :
    pyReplaceCount (c :: t) old new (k+1) = c :: pyReplaceCount t old new (k+1) := by
  unfold pyReplaceCount
  show pyReplaceCountAux (c :: t) old new (t.length + 1) (k+1)
      = c :: pyReplaceCountAux t old new t.length (k+1)
  simp only [pyReplaceCountAux]
  rw [if_neg hp]

theorem repsome_pyReplaceCount {old new : List Char} (hold : old ≠ []) :
    ∀ (N : Nat) (s : List Char) (k : Nat), s.length ≤ N →
      RepSome old new s (pyReplaceCount s old new k) := by
  intro N
  induction N with
  | zero =>
    intro s k hlen
    have hs : s = [] := by
      cases s with
      | nil => rfl
      | cons x t => simp at hlen
    subst hs
    cases k with
    | zero => rw [pyReplaceCount_zero]; exact .nil
    | succ k =>
      have : pyReplaceCount [] old new (k+1) = [] := by
        unfold pyReplaceCount
        simp [pyReplaceCountAux]
      rw [this]
      exact .nil
  | succ N ih =>
    intro s k hlen
    cases k with
    | zero => rw [pyReplaceCount_zero]; exact repsome_refl old new s
    | succ k =>
      by_cases hpre : old.isPrefixOf s
      · obtain ⟨rest, hrest⟩ : ∃ t, old ++ t = s := List.isPrefixOf_iff_prefix.mp hpre
        subst hrest
        rw [pyReplaceCount_pos hold hpre, List.drop_left]
        refine RepSome.swap (ih rest k ?_)
        have := length_pos_of_ne_nil hold
        simp only [List.length_append] at hlen
        omega
      · cases s with
        | nil =>
          have : pyReplaceCount [] old new (k+1) = [] := by
            unfold pyReplaceCount
            simp [pyReplaceCountAux]
          rw [this]
          exact .nil
        | cons c t =>
          rw [pyReplaceCount_neg hpre]
          exact .keep c (ih t (k+1) (by simp at hlen; omega))

theorem repsome_replaceAt {old new : List Char} (hold : old ≠ []) :
    ∀ (q : Nat) (s : List Char), old.isPrefixOf (s.drop q) →
      RepSome old new s (replaceAt s q old.length new) := by
  intro q
  induction q with
  | zero =>
    intro s hp
    rw [List.drop_zero] at hp
    obtain ⟨rest, hrest⟩ : ∃ t, old ++ t = s := List.isPrefixOf_iff_prefix.mp hp
    subst hrest
    unfold replaceAt
    rw [List.take_zero, List.nil_append, Nat.zero_add, List.drop_left]
    exact .swap (repsome_refl old new rest)
  | succ q ih =>
    intro s hp
    cases s with
    | nil =>
      rw [List.drop_nil, isPrefixOf_nil_false hold] at hp
      exact Bool.noConfusion hp
    | cons c t =>
      have hform : replaceAt (c :: t) (q+1) old.length new
          = c :: replaceAt t q old.length new := by
        unfold replaceAt
        rw [List.take_succ_cons]
        have h2 : q + 1 + old.length = (q + old.length) + 1 := by omega
        rw [h2, List.drop_succ_cons]
        simp [List.append_assoc]
      rw [hform]
      exact .keep c (ih t hp)

/-- Reverting: if `t` arose from `s` by replacing some occurrences of
`[a,b]` with `[c,d]`, and `s` itself contains no `[c,d]`, then replacing
every `[c,d]` in `t` back with `[a,b]` recovers `s` exactly. -/
theorem repsome_revert {a b c d : Char} (hcd : c ≠ d) :
    ∀ {s t : List Char}, RepSome [a,b] [c,d] s t →
      containsSub s [c,d] = false → pyReplace t [c,d] [a,b] = s := by
  have hcdne : ([c,d] : List Char) ≠ [] := by simp
  intro s t h
  induction h with
  | nil =>
    intro _
    rw [pyReplace_nil hcdne]
  | keep ch hrep ih =>
    rename_i s' t'
    intro hs
    obtain ⟨hnp', hs'⟩ := containsSub_cons_elim hs
    have hnp : ¬ ([c,d] : List Char).isPrefixOf (ch :: t') := by
      intro hcon
      rw [cons_isPrefixOf_cons_eq, Bool.and_eq_true, beq_iff_eq] at hcon
      obtain ⟨hch, hdpre⟩ := hcon
      cases hrep with
      | nil => exact Bool.noConfusion hdpre
      | keep y hrep2 =>
        rename_i s'' t''
        rw [one_isPrefixOf_cons, beq_iff_eq] at hdpre
        refine hnp' ?_
        rw [cons_isPrefixOf_cons_eq, one_isPrefixOf_cons, hch, hdpre]
        simp
      | swap hrep2 =>
        rename_i s'' t''
        rw [show ([c,d] : List Char) ++ t'' = c :: d :: t'' from rfl,
          one_isPrefixOf_cons, beq_iff_eq] at hdpre
        exact hcd hdpre.symm
    rw [pyReplace_neg hcdne hnp, ih hs']
  | swap hrep ih =>
    rename_i s' t'
    intro hs
    have hpre : ([c,d] : List Char).isPrefixOf ([c,d] ++ t') :=
      isPrefixOf_append_self _ _
    rw [pyReplace_pos hcdne hpre, List.drop_left]
    have hs' : containsSub s' [c,d] = false := by
      rw [show ([a,b] : List Char) ++ s' = a :: b :: s' from rfl] at hs
      exact (containsSub_cons_elim (containsSub_cons_elim hs).2).2
    rw [ih hs']

theorem occPosAux_fuel {pat : List Char} (hpat : pat ≠ []) :
    ∀ (f g : Nat) (s : List Char) (off : Nat), s.length ≤ f → s.length ≤ g →
      occPosAux s pat f off = occPosAux s pat g off := by
  intro f
  induction f with
  | zero =>
    intro g s off hf hg
    have hs : s = [] := by
      cases s with
      | nil => rfl
      | cons a t => simp at hf
    subst hs
    cases g with
    | zero => rfl
    | succ g => simp [occPosAux, isPrefixOf_nil_false hpat]
  | succ f ih =>
    intro g s off hf hg
    cases g with
    | zero =>
      have hs : s = [] := by
        cases s with
        | nil => rfl
        | cons a t => simp at hg
      subst hs
      simp [occPosAux, isPrefixOf_nil_false hpat]
    | succ g =>
      show occPosAux s pat (f+1) off = occPosAux s pat (g+1) off
      unfold occPosAux
      by_cases hp : pat.isPrefixOf s
      · rw [if_pos hp, if_pos hp]
        have h1 := length_pos_of_ne_nil hpat
        have hlen : (s.drop pat.length).length ≤ f := by
          rw [List.length_drop]; omega
        have hlen' : (s.drop pat.length).length ≤ g := by
          rw [List.length_drop]; omega
        rw [ih g _ _ hlen hlen']
      · rw [if_neg hp, if_neg hp]
        cases s with
        | nil => rfl
        | cons c t =>
          have hlen : t.length ≤ f := by simp at hf; omega
          have hlen' : t.length ≤ g := by simp at hg; omega
          show occPosAux t pat f (off+1) = occPosAux t pat g (off+1)
          rw [ih g t (off+1) hlen hlen']

theorem occPosAux_shift :
    ∀ (f : Nat) (s pat : List Char) (off : Nat),
      occPosAux s pat f off = (occPosAux s pat f 0).map (· + off) := by
  intro f
  induction f with
  | zero => intro s pat off; rfl
  | succ f ih =>
    intro s pat off
    unfold occPosAux
    by_cases hp : pat.isPrefixOf s
    · rw [if_pos hp, if_pos hp]
      rw [ih (s.drop pat.length) pat (off + pat.length),
        ih (s.drop pat.length) pat (0 + pat.length)]
      simp only [List.map_cons, List.map_map, Nat.zero_add]
      congr 1
      refine List.map_congr_left fun x _ => ?_
      simp only [Function.comp_apply]
      omega
    · rw [if_neg hp, if_neg hp]
      cases s with
      | nil => rfl
      | cons c t =>
        show occPosAux t pat f (off+1) = (occPosAux t pat f 1).map (· + off)
        rw [ih t pat (off+1), ih t pat 1]
        simp only [List.map_map]
        congr 1
        funext x
        simp only [Function.comp_apply]
        omega

theorem occPositions_nil (pat : List Char) : occPositions [] pat = [] := rfl

theorem occPositions_pos {s pat : List Char} (hpat : pat ≠ [])
    (hp : pat.isPrefixOf s) :
    occPositions s pat
      = 0 :: (occPositions (s.drop pat.length) pat).map (· + pat.length) := by
  have hs : s ≠ [] := by
    intro h
    subst h
    rw [isPrefixOf_nil_false hpat] at hp
    exact Bool.noConfusion hp
  have h1 := length_pos_of_ne_nil hpat
  have hslen := length_pos_of_ne_nil hs
  unfold occPositions
  obtain ⟨n, hn⟩ : ∃ n, s.length = n + 1 := ⟨s.length - 1, by omega⟩
  rw [hn]
  have step : occPosAux s pat (n+1) 0
      = 0 :: occPosAux (s.drop pat.length) pat n (0 + pat.length) := by
    simp only [occPosAux]
    rw [if_pos hp]
  rw [step, Nat.zero_add,
    occPosAux_fuel hpat n (s.drop pat.length).length _ pat.length
      (by rw [List.length_drop]; omega) le_rfl,
    occPosAux_shift]

theorem occPositions_neg {c : Char} {t pat : List Char}
    (hp : ¬ pat.isPrefixOf (c :: t)) :
    occPositions (c :: t) pat = (occPositions t pat).map (· + 1) := by
  unfold occPositions
  simp only [List.length_cons]
  have step : occPosAux (c :: t) pat (t.length + 1) 0
      = occPosAux t pat t.length (0 + 1) := by
    simp only [occPosAux]
    rw [if_neg hp]
  rw [step, Nat.zero_add, occPosAux_shift]

theorem occPositions_mem_prefix {pat : List Char} (hpat : pat ≠ []) :
    ∀ (N : Nat) (s : List Char), s.length ≤ N →
      ∀ x ∈ occPositions s pat, pat.isPrefixOf (s.drop x) := by
  intro N
  induction N with
  | zero =>
    intro s hlen x hx
    have hs : s = [] := by
      cases s with
      | nil => rfl
      | cons a t => simp at hlen
    subst hs
    rw [occPositions_nil] at hx
    simp at hx
  | succ N ih =>
    intro s hlen x hx
    by_cases hp : pat.isPrefixOf s
    · rw [occPositions_pos hpat hp] at hx
      rcases List.mem_cons.mp hx with hx0 | hxm
      · subst hx0
        rwa [List.drop_zero]
      · obtain ⟨y, hy, hxy⟩ := List.mem_map.mp hxm
        have h1 := length_pos_of_ne_nil hpat
        have hs : s ≠ [] := by
          intro h
          subst h
          rw [isPrefixOf_nil_false hpat] at hp
          exact Bool.noConfusion hp
        have hslen := length_pos_of_ne_nil hs
        have hdl : (s.drop pat.length).length ≤ N := by
          rw [List.length_drop]; omega
        have hpre := ih (s.drop pat.length) hdl y hy
        rw [List.drop_drop] at hpre
        subst hxy
        simpa [Nat.add_comm] using hpre
    · cases s with
      | nil =>
        rw [occPositions_nil] at hx
        simp at hx
      | cons c t =>
        rw [occPositions_neg hp] at hx
        obtain ⟨y, hy, hxy⟩ := List.mem_map.mp hx
        have hpre := ih t (by simp at hlen; omega) y hy
        subst hxy
        simpa using hpre

theorem seekKo_eq : seekKo = ['탐', '색'] := by decide

theorem discoverKo_eq : discoverKo = ['발', '견'] := by decide

/-- The transform with its let-bindings expanded (definitional). -/
theorem seekTransform_eq (E K : List Char) :
    seekTransform E K =
      if pyCount E seekEn = 0 then K
      else if pyCount K discoverKo = pyCount E discoverEn ∧
          pyCount K seekKo = pyCount E seekEn then K
      else if 0 < pyCount E discoverEn then
        if pyCount (pyReplace K seekKo discoverKo) discoverKo
            < pyCount E discoverEn + pyCount E seekEn then K
        else if pyFind E discoverEn < pyFind E seekEn then
          if pyCount E discoverEn
              < (occPositions (pyReplace K seekKo discoverKo) discoverKo).length then
            replaceAt (pyReplace K seekKo discoverKo)
              ((occPositions (pyReplace K seekKo discoverKo) discoverKo).getD
                (pyCount E discoverEn) 0)
              discoverKo.length seekKo
          else K
        else pyReplaceCount (pyReplace K seekKo discoverKo) discoverKo seekKo
          (pyCount E seekEn)
      else pyReplace (pyReplace K seekKo discoverKo) discoverKo seekKo := rfl

/-- Reverting the transform's output recovers the reverted source text. -/
theorem revert_kr {kr t : List Char} (hrep : RepSome discoverKo seekKo kr t)
    (hfree : containsSub kr seekKo = false) :
    pyReplace t seekKo discoverKo = kr := by
  rw [discoverKo_eq, seekKo_eq] at hrep
  rw [seekKo_eq] at hfree
  have h := repsome_revert (show ('탐' : Char) ≠ '색' by decide) hrep hfree
  rwa [← seekKo_eq, ← discoverKo_eq] at h

/-- C9 — the SEEK retranslation is idempotent: a Korean text already in the
target state (matching `발견`/`탐색` counts) is left unchanged, and applying
the transformation twice with the same English text gives the same result as
applying it once (the revert step restores the same working text, and the
branch decisions depend only on the English text and that working text). -/
theorem seek_retranslation_idempotent (E K : List Char) :
    ((pyCount K discoverKo = pyCount E discoverEn ∧
      pyCount K seekKo = pyCount E seekEn) → seekTransform E K = K) ∧
    seekTransform E (seekTransform E K) = seekTransform E K := by
  have hdk : discoverKo ≠ [] := by decide
  have hsk : seekKo ≠ [] := by decide
  constructor
  · intro hok
    rw [seekTransform_eq]
    by_cases hts : pyCount E seekEn = 0
    · rw [if_pos hts]
    · rw [if_neg hts, if_pos hok]
  · by_cases hts : pyCount E seekEn = 0
    · have h1 : seekTransform E K = K := by rw [seekTransform_eq, if_pos hts]
      rw [h1]
      exact h1
    · by_cases hok1 : pyCount K discoverKo = pyCount E discoverEn ∧
          pyCount K seekKo = pyCount E seekEn
      · have h1 : seekTransform E K = K := by
          rw [seekTransform_eq, if_neg hts, if_pos hok1]
        rw [h1]
        exact h1
      · set kr := pyReplace K seekKo discoverKo with hkr
        have hkrfree : containsSub kr seekKo = false := by
          rw [hkr, seekKo_eq, discoverKo_eq]
          exact replace_no_old (by decide) (by decide) (by decide) K.length K le_rfl
        by_cases htd : 0 < pyCount E discoverEn
        · by_cases hexp : pyCount kr discoverKo
              < pyCount E discoverEn + pyCount E seekEn
          · have h1 : seekTransform E K = K := by
              rw [seekTransform_eq, if_neg hts, if_neg hok1, ← hkr, if_pos htd,
                if_pos hexp]
            rw [h1]
            exact h1
          · by_cases hds : pyFind E discoverEn < pyFind E seekEn
            · by_cases hms : pyCount E discoverEn
                  < (occPositions kr discoverKo).length
              · have hTK : seekTransform E K
                    = replaceAt kr
                        ((occPositions kr discoverKo).getD (pyCount E discoverEn) 0)
                        discoverKo.length seekKo := by
                  rw [seekTransform_eq, if_neg hts, if_neg hok1, ← hkr, if_pos htd,
                    if_neg hexp, if_pos hds, if_pos hms]
                set q := (occPositions kr discoverKo).getD (pyCount E discoverEn) 0
                  with hq
                set t := replaceAt kr q discoverKo.length seekKo with ht
                have hqmem : q ∈ occPositions kr discoverKo := by
                  rw [hq, List.getD_eq_getElem _ 0 hms]
                  exact List.getElem_mem hms
                have hqpre : discoverKo.isPrefixOf (kr.drop q) :=
                  occPositions_mem_prefix hdk kr.length kr le_rfl q hqmem
                have hrep : RepSome discoverKo seekKo kr t := by
                  rw [ht]
                  exact repsome_replaceAt hdk q kr hqpre
                have hrevert : pyReplace t seekKo discoverKo = kr :=
                  revert_kr hrep hkrfree
                rw [hTK]
                by_cases hok2 : pyCount t discoverKo = pyCount E discoverEn ∧
                    pyCount t seekKo = pyCount E seekEn
                · rw [seekTransform_eq, if_neg hts, if_pos hok2]
                · rw [seekTransform_eq, if_neg hts, if_neg hok2, hrevert,
                    if_pos htd, if_neg hexp, if_pos hds, if_pos hms, ← hq, ← ht]
              · have h1 : seekTransform E K = K := by
                  rw [seekTransform_eq, if_neg hts, if_neg hok1, ← hkr, if_pos htd,
                    if_neg hexp, if_pos hds, if_neg hms]
                rw [h1]
                exact h1
            · have hTK : seekTransform E K
                  = pyReplaceCount kr discoverKo seekKo (pyCount E seekEn) := by
                rw [seekTransform_eq, if_neg hts, if_neg hok1, ← hkr, if_pos htd,
                  if_neg hexp, if_neg hds]
              set t := pyReplaceCount kr discoverKo seekKo (pyCount E seekEn) with ht
              have hrep : RepSome discoverKo seekKo kr t := by
                rw [ht]
                exact repsome_pyReplaceCount hdk kr.length kr _ le_rfl
              have hrevert : pyReplace t seekKo discoverKo = kr :=
                revert_kr hrep hkrfree
              rw [hTK]
              by_cases hok2 : pyCount t discoverKo = pyCount E discoverEn ∧
                  pyCount t seekKo = pyCount E seekEn
              · rw [seekTransform_eq, if_neg hts, if_pos hok2]
              · rw [seekTransform_eq, if_neg hts, if_neg hok2, hrevert, if_pos htd,
                  if_neg hexp, if_neg hds, ← ht]
        · have hTK : seekTransform E K = pyReplace kr discoverKo seekKo := by
            rw [seekTransform_eq, if_neg hts, if_neg hok1, ← hkr, if_neg htd]
          set t := pyReplace kr discoverKo seekKo with ht
          have hrep : RepSome discoverKo seekKo kr t := by
            rw [ht]
            exact repsome_pyReplace hdk kr.length kr le_rfl
          have hrevert : pyReplace t seekKo discoverKo = kr :=
            revert_kr hrep hkrfree
          rw [hTK]
          by_cases hok2 : pyCount t discoverKo = pyCount E discoverEn ∧
              pyCount t seekKo = pyCount E seekEn
          · rw [seekTransform_eq, if_neg hts, if_pos hok2]
          · rw [seekTransform_eq, if_neg hts, if_neg hok2, hrevert, if_neg htd, ← ht]

/-- C9 witness: a text already in the target state is untouched, and a
mixed Discover/SEEK card is transformed idempotently. -/
theorem seek_retranslation_idempotent_witness :
    seekTransform "SEEK a card".data "카드를 탐색한다".data = "카드를 탐색한다".data ∧
    seekTransform "Discover 3, then SEEK".data
        (seekTransform "Discover 3, then SEEK".data "발견 3, 그리고 발견".data)
      = seekTransform "Discover 3, then SEEK".data "발견 3, 그리고 발견".data :=
  ⟨(seek_retranslation_idempotent "SEEK a card".data "카드를 탐색한다".data).1
      (by constructor <;> decide),
   (seek_retranslation_idempotent "Discover 3, then SEEK".data
      "발견 3, 그리고 발견".data).2⟩

end MtgaPatcher
